import Mathlib

/-!
Verification of the CFL-reachability fixpoint solver of
`src/Assignment-4-CFLR/CFLR.cpp` (`CFLR::solve`).

The solver saturates a labeled directed graph under the grammar

  AddrBar → PT,   CopyBar·PT → PT,   Store·PT → PV,
  PTBar·Load → VP,   PV·VP → Copy

maintaining PT/PTBar and Copy/CopyBar symmetry for every edge it inserts.

The graph and worklist containers live in `A4Lib`/`A4Header.h`, which are not
part of the sources; following the specification they are modelled here as a
duplicate-free edge list (set semantics; the forward/reverse adjacency indices
are specified to be consistent with the edge set at all times, so `succs` and
`preds` are read off the edge set directly) and a FIFO queue.
-/

/-- Edge labels of the CFL-R graph, as enumerated in the specification's data
model (`EdgeLabel` in `A4Header.h`). -/
inductive EdgeLabel where
  | Addr | AddrBar | Copy | CopyBar | Store | Load | PT | PTBar | PV | VP
deriving DecidableEq, Repr

open EdgeLabel

/-- A labeled edge, mirroring the C++ `CFLREdge(src, dst, label)`. -/
structure CFLREdge where
  src : Nat
  dst : Nat
  label : EdgeLabel
deriving DecidableEq, Repr

/-- Solver state: the labeled graph and the worklist.

`graph` models the `CFLRGraph` edge set as a duplicate-free list (the spec
mandates set semantics); `workList` models the FIFO worklist (`push` appends at
the back, `pop` removes at the front). `pushLog` is ghost instrumentation only:
it records every edge ever pushed onto the worklist, in push order, and has no
influence on `graph` or `workList`; it exists solely to state the
"enqueued exactly once" property. -/
structure SolverState where
  graph : List CFLREdge
  workList : List CFLREdge
  pushLog : List CFLREdge
deriving DecidableEq, Repr

/-- Modelled from the spec: `CFLRGraph::hasEdge(u, v, l)` of the missing
`A4Lib`, an exact membership test on the edge set. -/
def hasEdge (G : List CFLREdge) (u v : Nat) (l : EdgeLabel) : Prop :=
  CFLREdge.mk u v l ∈ G

instance (G : List CFLREdge) (u v : Nat) (l : EdgeLabel) :
    Decidable (hasEdge G u v l) :=
  inferInstanceAs (Decidable (_ ∈ _))

/-- Modelled from the spec: `CFLRGraph::addEdge(u, v, l)` of the missing
`A4Lib`, inserting the edge if absent (set semantics). -/
def graphAddEdge (G : List CFLREdge) (u v : Nat) (l : EdgeLabel) :
    List CFLREdge :=
  if hasEdge G u v l then G else G ++ [CFLREdge.mk u v l]

/-- Modelled from the spec: `WorkList::push`, appending at the back (FIFO).
Also records the push in the ghost `pushLog`. -/
def pushEdge (st : SolverState) (e : CFLREdge) : SolverState :=
  { st with workList := st.workList ++ [e], pushLog := st.pushLog ++ [e] }

/-- The `addEdge` lambda of `CFLR::solve` (CFLR.cpp lines 42-60): insert the
edge if new, enqueue it, and maintain the PT/PTBar resp. Copy/CopyBar inverse
edge for newly inserted PT resp. Copy edges. -/
def addEdge (st : SolverState) (u v : Nat) (l : EdgeLabel) : SolverState :=
  if hasEdge st.graph u v l then st
  else
    let st1 := pushEdge { st with graph := graphAddEdge st.graph u v l }
      (CFLREdge.mk u v l)
    if l = PT then
      if hasEdge st1.graph v u PTBar then st1
      else pushEdge { st1 with graph := graphAddEdge st1.graph v u PTBar }
        (CFLREdge.mk v u PTBar)
    else if l = Copy then
      if hasEdge st1.graph v u CopyBar then st1
      else pushEdge { st1 with graph := graphAddEdge st1.graph v u CopyBar }
        (CFLREdge.mk v u CopyBar)
    else st1

/-- Modelled from the spec: `successors(v)[l]`, the forward adjacency index of
the missing `A4Lib`, read off the edge set with which it is specified to be
consistent at all times. -/
def succs (G : List CFLREdge) (v : Nat) (l : EdgeLabel) : List Nat :=
  (G.filter fun e => e.src = v ∧ e.label = l).map (·.dst)

/-- Modelled from the spec: `predecessors(u)[l]`, the reverse adjacency index
of the missing `A4Lib`. -/
def preds (G : List CFLREdge) (u : Nat) (l : EdgeLabel) : List Nat :=
  (G.filter fun e => e.dst = u ∧ e.label = l).map (·.src)

/-- Apply `addEdge` to a list of candidate edges in order, as the `for` loops
over an adjacency set do in `CFLR::solve`. -/
def addEdgeList (st : SolverState) (ts : List (Nat × Nat × EdgeLabel)) :
    SolverState :=
  ts.foldl (fun s t => addEdge s t.1 t.2.1 t.2.2) st

/-- The body of the main worklist loop of `CFLR::solve` (CFLR.cpp lines
86-178) for one popped edge `e = (u, v, lbl)`:

* unary phase: if `lbl = AddrBar`, `addEdge(u, v, PT)`;
* right-match phase (`lbl` is the left operand): for `lbl` one of `CopyBar`,
  `Store`, `PTBar`, `PV`, join with `successors(v)`;
* left-match phase (`lbl` is the right operand): for `lbl` one of `PT`
  (CopyBar- and then Store-predecessors), `Load`, `VP`, join with
  `predecessors(u)`.

The three phases' guard conditions are mutually exclusive (they test `lbl`
against disjoint label sets), so at most one fires per popped edge; the
adjacency set being joined against is enumerated as of the start of its loop. -/
def processEdge (st : SolverState) (e : CFLREdge) : SolverState :=
  match e.label with
  | AddrBar => addEdge st e.src e.dst PT
  | CopyBar =>
      addEdgeList st ((succs st.graph e.dst PT).map fun w => (e.src, w, PT))
  | Store =>
      addEdgeList st ((succs st.graph e.dst PT).map fun w => (e.src, w, PV))
  | PTBar =>
      addEdgeList st ((succs st.graph e.dst Load).map fun w => (e.src, w, VP))
  | PV =>
      addEdgeList st ((succs st.graph e.dst VP).map fun w => (e.src, w, Copy))
  | PT =>
      let stA := addEdgeList st
        ((preds st.graph e.src CopyBar).map fun w => (w, e.dst, PT))
      addEdgeList stA
        ((preds stA.graph e.src Store).map fun w => (w, e.dst, PV))
  | Load =>
      addEdgeList st ((preds st.graph e.src PTBar).map fun w => (w, e.dst, VP))
  | VP =>
      addEdgeList st ((preds st.graph e.src PV).map fun w => (w, e.dst, Copy))
  | _ => st

/-- The seed phase of `CFLR::solve` (lines 66-74): every edge of the populated
graph is pushed onto the (initially empty) worklist, so the initial worklist
enumerates exactly the initial graph. The ghost `pushLog` records these seed
pushes as well. -/
def initState (g : List CFLREdge) : SolverState :=
  { graph := g, workList := g, pushLog := g }

/-- The drain loop of `CFLR::solve`, FIFO discipline, driven by explicit fuel
(`solve` supplies provably sufficient fuel, see `drainFuel_quiescent`). -/
def drainFuel : Nat → SolverState → SolverState
  | 0, st => st
  | n + 1, st =>
      match st.workList with
      | [] => st
      | e :: rest => drainFuel n (processEdge { st with workList := rest } e)

/-- All node identifiers mentioned by a list of edges. -/
def nodesOf (G : List CFLREdge) : List Nat :=
  G.map (·.src) ++ G.map (·.dst)

/-- Number of distinct nodes of the initial graph. -/
def numNodes (g : List CFLREdge) : Nat := (nodesOf g).dedup.length

/-- Size of the finite edge universe `|V|² × |Labels|` over the initial
graph's nodes. -/
def maxEdges (g : List CFLREdge) : Nat := numNodes g * (numNodes g * 10)

/-- Fuel that provably suffices to drain the worklist. -/
def fuelFor (g : List CFLREdge) : Nat := 2 * maxEdges g + g.length + 1

/-- `CFLR::solve()` on an initial graph `g`: seed the worklist with every
edge and drain to quiescence (FIFO worklist). -/
def solveState (g : List CFLREdge) : SolverState :=
  drainFuel (fuelFor g) (initState g)

/-- The saturated edge set after `CFLR::solve()` returns. -/
def solveGraph (g : List CFLREdge) : List CFLREdge := (solveState g).graph

/-- The drain loop under a LIFO (stack) worklist discipline: `push` still
appends at the back, `pop` removes at the back. Used to state worklist-order
independence. -/
def drainFuelLifo : Nat → SolverState → SolverState
  | 0, st => st
  | n + 1, st =>
      match st.workList.getLast? with
      | none => st
      | some e =>
          drainFuelLifo n (processEdge { st with workList := st.workList.dropLast } e)

/-- `CFLR::solve()` with the LIFO worklist discipline. -/
def solveStateLifo (g : List CFLREdge) : SolverState :=
  drainFuelLifo (fuelFor g) (initState g)

/-- The saturated edge set of the LIFO run. -/
def solveGraphLifo (g : List CFLREdge) : List CFLREdge := (solveStateLifo g).graph

/-- Proof-layer description of exactly which edges a single `addEdge` call
appends, identically to the graph, the worklist and the push log. -/
def addDelta (G : List CFLREdge) (u v : Nat) (l : EdgeLabel) : List CFLREdge :=
  if hasEdge G u v l then []
  else if l = PT then
    if hasEdge (G ++ [CFLREdge.mk u v l]) v u PTBar then [CFLREdge.mk u v l]
    else [CFLREdge.mk u v l, CFLREdge.mk v u PTBar]
  else if l = Copy then
    if hasEdge (G ++ [CFLREdge.mk u v l]) v u CopyBar then [CFLREdge.mk u v l]
    else [CFLREdge.mk u v l, CFLREdge.mk v u CopyBar]
  else [CFLREdge.mk u v l]

/-- Edges appended by a sequence of `addEdge` calls. -/
def listDelta (G : List CFLREdge) : List (Nat × Nat × EdgeLabel) → List CFLREdge
  | [] => []
  | t :: ts =>
      addDelta G t.1 t.2.1 t.2.2 ++
        listDelta (G ++ addDelta G t.1 t.2.1 t.2.2) ts

/-- The labels that only solver derivations produce. -/
def derivedLabels : List EdgeLabel := [PT, PTBar, Copy, CopyBar, PV, VP]

/-- The labels produced by the frontend only. -/
def terminalLabels : List EdgeLabel := [Addr, AddrBar, Store, Load]

/-- The four binary productions `l₁ · l₂ → l₃` of the grammar. -/
def ruleList : List (EdgeLabel × EdgeLabel × EdgeLabel) :=
  [(CopyBar, PT, PT), (Store, PT, PV), (PTBar, Load, VP), (PV, VP, Copy)]

/-- Worklist invariant: any still-missing consequence of edges already in the
graph has one of its premise edges still pending on the worklist. -/
def WInv (st : SolverState) : Prop :=
  (∀ u v, CFLREdge.mk u v AddrBar ∈ st.graph →
      CFLREdge.mk u v PT ∈ st.graph ∨ CFLREdge.mk u v AddrBar ∈ st.workList) ∧
  (∀ r ∈ ruleList, ∀ u v w,
      CFLREdge.mk u v r.1 ∈ st.graph → CFLREdge.mk v w r.2.1 ∈ st.graph →
      CFLREdge.mk u w r.2.2 ∈ st.graph ∨
        CFLREdge.mk u v r.1 ∈ st.workList ∨
        CFLREdge.mk v w r.2.1 ∈ st.workList)

/-- PT/PTBar and Copy/CopyBar symmetry of an edge set, in both directions. -/
def SymGraph (G : List CFLREdge) : Prop :=
  ∀ u v, (CFLREdge.mk u v PT ∈ G ↔ CFLREdge.mk v u PTBar ∈ G) ∧
    (CFLREdge.mk u v Copy ∈ G ↔ CFLREdge.mk v u CopyBar ∈ G)

/-- Conditional symmetry relative to the initial graph `g`: every PT (resp.
Copy) edge that the solver inserted itself has its inverse present. -/
def CondSym (g G : List CFLREdge) : Prop :=
  (∀ u v, CFLREdge.mk u v PT ∈ G → CFLREdge.mk u v PT ∉ g →
      CFLREdge.mk v u PTBar ∈ G) ∧
  (∀ u v, CFLREdge.mk u v Copy ∈ G → CFLREdge.mk u v Copy ∉ g →
      CFLREdge.mk v u CopyBar ∈ G)

/-- Run invariant of `solve()` started on an initial graph `g`. -/
structure RunInv (g : List CFLREdge) (st : SolverState) : Prop where
  nodup : st.graph.Nodup
  init_sub : ∀ x ∈ g, x ∈ st.graph
  wl_sub : ∀ x ∈ st.workList, x ∈ st.graph
  nodes : ∀ x ∈ st.graph, x.src ∈ nodesOf g ∧ x.dst ∈ nodesOf g
  fresh_lbl : ∀ x ∈ st.graph, x ∉ g → x.label ∈ derivedLabels
  condsym : CondSym g st.graph
  winv : WInv st
  pushes : st.pushLog = st.graph

/-- Termination measure of the drain loop. -/
def meas (g : List CFLREdge) (st : SolverState) : Nat :=
  2 * (maxEdges g - st.graph.length) + st.workList.length

/-- Closure of an edge predicate under the unary and binary productions. -/
def GrammarClosed (T : CFLREdge → Prop) : Prop :=
  (∀ u v, T (CFLREdge.mk u v AddrBar) → T (CFLREdge.mk u v PT)) ∧
  (∀ r ∈ ruleList, ∀ u v w,
      T (CFLREdge.mk u v r.1) → T (CFLREdge.mk v w r.2.1) →
      T (CFLREdge.mk u w r.2.2))

/-- Closure under the solver's symmetry rule: a PT (resp. Copy) edge forces
its PTBar (resp. CopyBar) inverse. -/
def SolverSymClosed (T : CFLREdge → Prop) : Prop :=
  (∀ u v, T (CFLREdge.mk u v PT) → T (CFLREdge.mk v u PTBar)) ∧
  (∀ u v, T (CFLREdge.mk u v Copy) → T (CFLREdge.mk v u CopyBar))

/-- Closure under the symmetry rule restricted to the edges the solver inserts
itself, i.e. those outside the initial graph `g`. -/
def CondSymClosed (g : List CFLREdge) (T : CFLREdge → Prop) : Prop :=
  (∀ u v, T (CFLREdge.mk u v PT) → CFLREdge.mk u v PT ∉ g →
      T (CFLREdge.mk v u PTBar)) ∧
  (∀ u v, T (CFLREdge.mk u v Copy) → CFLREdge.mk u v Copy ∉ g →
      T (CFLREdge.mk v u CopyBar))

/-- `T` is the least edge set containing the initial edges and closed under
the grammar and the solver's symmetry rule. -/
def IsLeastSolution (g : List CFLREdge) (T : CFLREdge → Prop) : Prop :=
  (∀ x ∈ g, T x) ∧ GrammarClosed T ∧ SolverSymClosed T ∧
    ∀ T' : CFLREdge → Prop, (∀ x ∈ g, T' x) → GrammarClosed T' →
      SolverSymClosed T' → ∀ x, T x → T' x

/-- The initial graph contains no PT or PTBar edges. -/
def NoPTInit (g : List CFLREdge) : Prop :=
  ∀ x ∈ g, x.label ≠ PT ∧ x.label ≠ PTBar

/-- Every initial Copy edge is accompanied by its CopyBar inverse and vice
versa. -/
def CopySymInit (g : List CFLREdge) : Prop :=
  ∀ x ∈ g, (x.label = Copy → CFLREdge.mk x.dst x.src CopyBar ∈ g) ∧
    (x.label = CopyBar → CFLREdge.mk x.dst x.src Copy ∈ g)

instance (g : List CFLREdge) : Decidable (NoPTInit g) := by
  unfold NoPTInit; infer_instance

instance (g : List CFLREdge) : Decidable (CopySymInit g) := by
  unfold CopySymInit; infer_instance

/-- All rule consequences having the popped edge `e` as one operand and the
other operand drawn from the pre-state graph `S` are present in `G`. -/
def Processed (S G : List CFLREdge) (e : CFLREdge) : Prop :=
  (e.label = AddrBar → CFLREdge.mk e.src e.dst PT ∈ G) ∧
  (∀ r ∈ ruleList, e.label = r.1 →
      ∀ w, CFLREdge.mk e.dst w r.2.1 ∈ S → CFLREdge.mk e.src w r.2.2 ∈ G) ∧
  (∀ r ∈ ruleList, e.label = r.2.1 →
      ∀ w, CFLREdge.mk w e.src r.1 ∈ S → CFLREdge.mk w e.dst r.2.2 ∈ G)

/-! ### Basic membership lemmas -/

theorem mem_nodesOf {G : List CFLREdge} {x : CFLREdge} (h : x ∈ G) :
    x.src ∈ nodesOf G ∧ x.dst ∈ nodesOf G :=
  ⟨List.mem_append_left _ (List.mem_map_of_mem _ h),
   List.mem_append_right _ (List.mem_map_of_mem _ h)⟩

theorem mem_succs {G : List CFLREdge} {v w : Nat} {l : EdgeLabel} :
    w ∈ succs G v l ↔ CFLREdge.mk v w l ∈ G := by
  simp only [succs, List.mem_map, List.mem_filter, decide_eq_true_eq]
  constructor
  · rintro ⟨e, ⟨he, h1, h2⟩, h3⟩
    cases e
    simp_all
  · intro h
    exact ⟨_, ⟨h, rfl, rfl⟩, rfl⟩

theorem mem_preds {G : List CFLREdge} {u w : Nat} {l : EdgeLabel} :
    w ∈ preds G u l ↔ CFLREdge.mk w u l ∈ G := by
  simp only [preds, List.mem_map, List.mem_filter, decide_eq_true_eq]
  constructor
  · rintro ⟨e, ⟨he, h1, h2⟩, h3⟩
    cases e
    simp_all
  · intro h
    exact ⟨_, ⟨h, rfl, rfl⟩, rfl⟩

/-! ### The delta form of `addEdge` -/

theorem addEdge_eq (st : SolverState) (u v : Nat) (l : EdgeLabel) :
    addEdge st u v l =
      { graph := st.graph ++ addDelta st.graph u v l,
        workList := st.workList ++ addDelta st.graph u v l,
        pushLog := st.pushLog ++ addDelta st.graph u v l } := by
  by_cases h : hasEdge st.graph u v l
  · simp [addEdge, addDelta, h]
  · by_cases hpt : l = PT
    · subst hpt
      by_cases h2 : hasEdge (st.graph ++ [CFLREdge.mk u v PT]) v u PTBar <;>
        simp [addEdge, addDelta, h, h2, graphAddEdge, pushEdge]
    · by_cases hcp : l = Copy
      · subst hcp
        by_cases h2 : hasEdge (st.graph ++ [CFLREdge.mk u v Copy]) v u CopyBar <;>
          simp [addEdge, addDelta, h, h2, graphAddEdge, pushEdge, hpt]
      · simp [addEdge, addDelta, h, hpt, hcp, graphAddEdge, pushEdge]

theorem addDelta_cases {G : List CFLREdge} {u v : Nat} {l : EdgeLabel} :
    ∀ d ∈ addDelta G u v l,
      d ∉ G ∧ (d = CFLREdge.mk u v l ∨
        (l = PT ∧ d = CFLREdge.mk v u PTBar) ∨
        (l = Copy ∧ d = CFLREdge.mk v u CopyBar)) := by
  intro d hd
  unfold addDelta at hd
  split_ifs at hd with h h1 h2 h3 h4
  · simp at hd
  · simp at hd
    subst hd
    exact ⟨h, Or.inl rfl⟩
  · rcases List.mem_pair.mp hd with rfl | rfl
    · exact ⟨h, Or.inl rfl⟩
    · refine ⟨fun hc => h2 ?_, Or.inr (Or.inl ⟨h1, rfl⟩)⟩
      exact List.mem_append_left _ hc
  · simp at hd
    subst hd
    exact ⟨h, Or.inl rfl⟩
  · rcases List.mem_pair.mp hd with rfl | rfl
    · exact ⟨h, Or.inl rfl⟩
    · refine ⟨fun hc => h4 ?_, Or.inr (Or.inr ⟨h3, rfl⟩)⟩
      exact List.mem_append_left _ hc
  · simp at hd
    subst hd
    exact ⟨h, Or.inl rfl⟩

theorem addDelta_nodup {G : List CFLREdge} {u v : Nat} {l : EdgeLabel}
    (h : G.Nodup) : (G ++ addDelta G u v l).Nodup := by
  unfold addDelta
  split_ifs with h1 h2 h3 h4 h5
  · simpa using h
  · simp_all [List.nodup_append, hasEdge]
  · have hne : CFLREdge.mk u v PT ≠ CFLREdge.mk v u PTBar := by simp
    simp_all [List.nodup_append, hasEdge]
  · simp_all [List.nodup_append, hasEdge]
  · have hne : CFLREdge.mk u v Copy ≠ CFLREdge.mk v u CopyBar := by simp
    simp_all [List.nodup_append, hasEdge]
  · simp_all [List.nodup_append, hasEdge]

theorem addDelta_ensure (G : List CFLREdge) (u v : Nat) (l : EdgeLabel) :
    CFLREdge.mk u v l ∈ G ++ addDelta G u v l := by
  unfold addDelta
  split_ifs with h h1 h2 h3 h4 <;>
    simp_all [hasEdge]

theorem addDelta_twin_PT {G : List CFLREdge} {u v : Nat}
    (h : CFLREdge.mk u v PT ∉ G) :
    CFLREdge.mk v u PTBar ∈ G ++ addDelta G u v PT := by
  by_cases h3 : CFLREdge.mk v u PTBar ∈ G ++ [CFLREdge.mk u v PT]
  · have hm : CFLREdge.mk v u PTBar ∈ G := by
      rcases List.mem_append.mp h3 with hc | hc
      · exact hc
      · simp at hc
    exact List.mem_append_left _ hm
  · have hd : addDelta G u v PT =
        [CFLREdge.mk u v PT, CFLREdge.mk v u PTBar] := by
      simp [addDelta, hasEdge, h, h3]
    rw [hd]
    simp

theorem addDelta_twin_Copy {G : List CFLREdge} {u v : Nat}
    (h : CFLREdge.mk u v Copy ∉ G) :
    CFLREdge.mk v u CopyBar ∈ G ++ addDelta G u v Copy := by
  by_cases h3 : CFLREdge.mk v u CopyBar ∈ G ++ [CFLREdge.mk u v Copy]
  · have hm : CFLREdge.mk v u CopyBar ∈ G := by
      rcases List.mem_append.mp h3 with hc | hc
      · exact hc
      · simp at hc
    exact List.mem_append_left _ hm
  · have hd : addDelta G u v Copy =
        [CFLREdge.mk u v Copy, CFLREdge.mk v u CopyBar] := by
      simp [addDelta, hasEdge, h, h3]
    rw [hd]
    simp

theorem addEdge_ensure (st : SolverState) (u v : Nat) (l : EdgeLabel) :
    CFLREdge.mk u v l ∈ (addEdge st u v l).graph := by
  rw [addEdge_eq]
  exact addDelta_ensure _ _ _ _

/-! ### The delta form of `addEdgeList` -/

theorem addEdgeList_eq (st : SolverState) (ts : List (Nat × Nat × EdgeLabel)) :
    addEdgeList st ts =
      { graph := st.graph ++ listDelta st.graph ts,
        workList := st.workList ++ listDelta st.graph ts,
        pushLog := st.pushLog ++ listDelta st.graph ts } := by
  induction ts generalizing st with
  | nil => simp [addEdgeList, listDelta]
  | cons t ts ih =>
    have hstep : addEdgeList st (t :: ts) =
        addEdgeList (addEdge st t.1 t.2.1 t.2.2) ts := rfl
    rw [hstep, ih, addEdge_eq]
    simp [listDelta, List.append_assoc]

theorem listDelta_cases {G : List CFLREdge} {ts : List (Nat × Nat × EdgeLabel)} :
    ∀ d ∈ listDelta G ts, ∃ t ∈ ts,
      d = CFLREdge.mk t.1 t.2.1 t.2.2 ∨
      (t.2.2 = PT ∧ d = CFLREdge.mk t.2.1 t.1 PTBar) ∨
      (t.2.2 = Copy ∧ d = CFLREdge.mk t.2.1 t.1 CopyBar) := by
  induction ts generalizing G with
  | nil => simp [listDelta]
  | cons t ts ih =>
    intro d hd
    rw [listDelta] at hd
    rcases List.mem_append.mp hd with hd | hd
    · obtain ⟨-, hc⟩ := addDelta_cases d hd
      exact ⟨t, List.mem_cons_self _ _, hc⟩
    · obtain ⟨t', ht', hc⟩ := ih d hd
      exact ⟨t', List.mem_cons_of_mem _ ht', hc⟩

theorem listDelta_nodup {G : List CFLREdge} {ts : List (Nat × Nat × EdgeLabel)}
    (h : G.Nodup) : (G ++ listDelta G ts).Nodup := by
  induction ts generalizing G with
  | nil => simpa [listDelta] using h
  | cons t ts ih =>
    rw [listDelta, ← List.append_assoc]
    exact ih (addDelta_nodup h)

theorem listDelta_ensure {G : List CFLREdge}
    {ts : List (Nat × Nat × EdgeLabel)} :
    ∀ t ∈ ts, CFLREdge.mk t.1 t.2.1 t.2.2 ∈ G ++ listDelta G ts := by
  induction ts generalizing G with
  | nil => simp
  | cons t' ts ih =>
    intro t ht
    rw [listDelta, ← List.append_assoc]
    rcases List.mem_cons.mp ht with rfl | ht
    · exact List.mem_append_left _ (addDelta_ensure G t.1 t.2.1 t.2.2)
    · exact ih t ht

theorem listDelta_label {G : List CFLREdge} {ts : List (Nat × Nat × EdgeLabel)}
    (h : ∀ t ∈ ts, t.2.2 = PT ∨ t.2.2 = PV ∨ t.2.2 = VP ∨ t.2.2 = Copy) :
    ∀ d ∈ listDelta G ts, d.label ∈ derivedLabels := by
  intro d hd
  obtain ⟨t, ht, hc⟩ := listDelta_cases d hd
  rcases hc with rfl | ⟨h1, rfl⟩ | ⟨h1, rfl⟩
  · rcases h t ht with h2 | h2 | h2 | h2 <;> simp [derivedLabels, h2]
  · simp [derivedLabels]
  · simp [derivedLabels]

theorem listDelta_nodes {G : List CFLREdge} {ts : List (Nat × Nat × EdgeLabel)}
    {ns : List Nat} (h : ∀ t ∈ ts, t.1 ∈ ns ∧ t.2.1 ∈ ns) :
    ∀ d ∈ listDelta G ts, d.src ∈ ns ∧ d.dst ∈ ns := by
  intro d hd
  obtain ⟨t, ht, hc⟩ := listDelta_cases d hd
  rcases hc with rfl | ⟨-, rfl⟩ | ⟨-, rfl⟩
  · exact h t ht
  · exact ⟨(h t ht).2, (h t ht).1⟩
  · exact ⟨(h t ht).2, (h t ht).1⟩

/-! ### Per-label equations for `processEdge` -/

theorem processEdge_Addr (st : SolverState) (u v : Nat) :
    processEdge st (CFLREdge.mk u v Addr) = st := rfl

theorem processEdge_AddrBar (st : SolverState) (u v : Nat) :
    processEdge st (CFLREdge.mk u v AddrBar) = addEdge st u v PT := rfl

theorem processEdge_Copy (st : SolverState) (u v : Nat) :
    processEdge st (CFLREdge.mk u v Copy) = st := rfl

theorem processEdge_CopyBar (st : SolverState) (u v : Nat) :
    processEdge st (CFLREdge.mk u v CopyBar) =
      addEdgeList st ((succs st.graph v PT).map fun w => (u, w, PT)) := rfl

theorem processEdge_Store (st : SolverState) (u v : Nat) :
    processEdge st (CFLREdge.mk u v Store) =
      addEdgeList st ((succs st.graph v PT).map fun w => (u, w, PV)) := rfl

theorem processEdge_PTBar (st : SolverState) (u v : Nat) :
    processEdge st (CFLREdge.mk u v PTBar) =
      addEdgeList st ((succs st.graph v Load).map fun w => (u, w, VP)) := rfl

theorem processEdge_PV (st : SolverState) (u v : Nat) :
    processEdge st (CFLREdge.mk u v PV) =
      addEdgeList st ((succs st.graph v VP).map fun w => (u, w, Copy)) := rfl

theorem processEdge_PT (st : SolverState) (u v : Nat) :
    processEdge st (CFLREdge.mk u v PT) =
      addEdgeList
        (addEdgeList st ((preds st.graph u CopyBar).map fun w => (w, v, PT)))
        ((preds (addEdgeList st
            ((preds st.graph u CopyBar).map fun w => (w, v, PT))).graph
          u Store).map fun w => (w, v, PV)) := rfl

theorem processEdge_Load (st : SolverState) (u v : Nat) :
    processEdge st (CFLREdge.mk u v Load) =
      addEdgeList st ((preds st.graph u PTBar).map fun w => (w, v, VP)) := rfl

theorem processEdge_VP (st : SolverState) (u v : Nat) :
    processEdge st (CFLREdge.mk u v VP) =
      addEdgeList st ((preds st.graph u PV).map fun w => (w, v, Copy)) := rfl

theorem addDelta_condsym {G : List CFLREdge} {u v : Nat} {l : EdgeLabel} :
    ∀ d ∈ addDelta G u v l,
      (d.label = PT → CFLREdge.mk d.dst d.src PTBar ∈ G ++ addDelta G u v l) ∧
      (d.label = Copy →
        CFLREdge.mk d.dst d.src CopyBar ∈ G ++ addDelta G u v l) := by
  intro d hd
  unfold addDelta at hd
  split_ifs at hd with h h1 h2 h3 h4
  · simp at hd
  · simp at hd
    subst hd
    subst h1
    refine ⟨fun _ => addDelta_twin_PT h, fun hc => ?_⟩
    simp at hc
  · subst h1
    rcases List.mem_pair.mp hd with rfl | rfl
    · refine ⟨fun _ => addDelta_twin_PT h, fun hc => ?_⟩
      simp at hc
    · refine ⟨fun hc => ?_, fun hc => ?_⟩ <;> simp at hc
  · simp at hd
    subst hd
    subst h3
    refine ⟨fun hc => ?_, fun _ => addDelta_twin_Copy h⟩
    simp at hc
  · subst h3
    rcases List.mem_pair.mp hd with rfl | rfl
    · refine ⟨fun hc => ?_, fun _ => addDelta_twin_Copy h⟩
      simp at hc
    · refine ⟨fun hc => ?_, fun hc => ?_⟩ <;> simp at hc
  · simp at hd
    subst hd
    exact ⟨fun hc => absurd hc h1, fun hc => absurd hc h3⟩

theorem listDelta_condsym {G : List CFLREdge}
    {ts : List (Nat × Nat × EdgeLabel)} :
    ∀ d ∈ listDelta G ts,
      (d.label = PT → CFLREdge.mk d.dst d.src PTBar ∈ G ++ listDelta G ts) ∧
      (d.label = Copy →
        CFLREdge.mk d.dst d.src CopyBar ∈ G ++ listDelta G ts) := by
  induction ts generalizing G with
  | nil => simp [listDelta]
  | cons t ts ih =>
    intro d hd
    rw [listDelta] at hd
    rw [listDelta, ← List.append_assoc]
    rcases List.mem_append.mp hd with hm | hm
    · obtain ⟨c1, c2⟩ := addDelta_condsym d hm
      exact ⟨fun h => List.mem_append_left _ (c1 h),
        fun h => List.mem_append_left _ (c2 h)⟩
    · exact ih d hm

/-- Delta form of a single `addEdgeList` call whose targets carry rule-result
labels and endpoints from `ns`. -/
theorem addEdgeList_delta (st : SolverState) (ts : List (Nat × Nat × EdgeLabel))
    {ns : List Nat}
    (hl : ∀ t ∈ ts, t.2.2 = PT ∨ t.2.2 = PV ∨ t.2.2 = VP ∨ t.2.2 = Copy)
    (hn : ∀ t ∈ ts, t.1 ∈ ns ∧ t.2.1 ∈ ns) :
    ∃ δ, addEdgeList st ts =
      { graph := st.graph ++ δ, workList := st.workList ++ δ,
        pushLog := st.pushLog ++ δ } ∧
      (st.graph.Nodup → (st.graph ++ δ).Nodup) ∧
      (∀ d ∈ δ, d.label ∈ derivedLabels) ∧
      (∀ d ∈ δ, d.src ∈ ns ∧ d.dst ∈ ns) ∧
      (∀ d ∈ δ,
        (d.label = PT → CFLREdge.mk d.dst d.src PTBar ∈ st.graph ++ δ) ∧
        (d.label = Copy → CFLREdge.mk d.dst d.src CopyBar ∈ st.graph ++ δ)) :=
  ⟨listDelta st.graph ts, addEdgeList_eq st ts, fun h => listDelta_nodup h,
    listDelta_label hl, listDelta_nodes hn, listDelta_condsym⟩

/-- One `processEdge` call appends one and the same list of fresh derived
edges to the graph, the worklist and the push log; all appended edges carry
derived labels and endpoints drawn from the popped edge and the graph. -/
theorem processEdge_delta (st : SolverState) (e : CFLREdge) :
    ∃ δ, processEdge st e =
      { graph := st.graph ++ δ, workList := st.workList ++ δ,
        pushLog := st.pushLog ++ δ } ∧
      (st.graph.Nodup → (st.graph ++ δ).Nodup) ∧
      (∀ d ∈ δ, d.label ∈ derivedLabels) ∧
      (∀ d ∈ δ, d.src ∈ e.src :: e.dst :: nodesOf st.graph ∧
        d.dst ∈ e.src :: e.dst :: nodesOf st.graph) ∧
      (∀ d ∈ δ,
        (d.label = PT → CFLREdge.mk d.dst d.src PTBar ∈ st.graph ++ δ) ∧
        (d.label = Copy → CFLREdge.mk d.dst d.src CopyBar ∈ st.graph ++ δ)) := by
  obtain ⟨u, v, l⟩ := e
  cases l
  case Addr =>
    exact ⟨[], by simp [processEdge_Addr], by simp, by simp, by simp, by simp⟩
  case Copy =>
    exact ⟨[], by simp [processEdge_Copy], by simp, by simp, by simp, by simp⟩
  case AddrBar =>
    refine ⟨addDelta st.graph u v PT, by rw [processEdge_AddrBar, addEdge_eq],
      fun h => addDelta_nodup h, ?_, ?_, addDelta_condsym⟩
    · intro d hd
      obtain ⟨-, hc⟩ := addDelta_cases d hd
      rcases hc with rfl | ⟨-, rfl⟩ | ⟨h1, -⟩
      · simp [derivedLabels]
      · simp [derivedLabels]
      · simp at h1
    · intro d hd
      obtain ⟨-, hc⟩ := addDelta_cases d hd
      rcases hc with rfl | ⟨-, rfl⟩ | ⟨h1, -⟩
      · simp
      · simp
      · simp at h1
  case CopyBar =>
    have hl : ∀ t ∈ (succs st.graph v PT).map (fun w => (u, w, PT)),
        t.2.2 = PT ∨ t.2.2 = PV ∨ t.2.2 = VP ∨ t.2.2 = Copy := by
      intro t ht
      simp only [List.mem_map] at ht
      obtain ⟨w, -, rfl⟩ := ht
      exact Or.inl rfl
    have hn : ∀ t ∈ (succs st.graph v PT).map (fun w => (u, w, PT)),
        t.1 ∈ u :: v :: nodesOf st.graph ∧
        t.2.1 ∈ u :: v :: nodesOf st.graph := by
      intro t ht
      simp only [List.mem_map] at ht
      obtain ⟨w, hw, rfl⟩ := ht
      refine ⟨by simp, ?_⟩
      have hm := (mem_nodesOf (mem_succs.mp hw)).2
      exact List.mem_cons_of_mem _ (List.mem_cons_of_mem _ hm)
    obtain ⟨δ, h1, h2, h3, h4, h5⟩ := addEdgeList_delta st _ hl hn
    exact ⟨δ, by rw [processEdge_CopyBar, h1], h2, h3, h4, h5⟩
  case Store =>
    have hl : ∀ t ∈ (succs st.graph v PT).map (fun w => (u, w, PV)),
        t.2.2 = PT ∨ t.2.2 = PV ∨ t.2.2 = VP ∨ t.2.2 = Copy := by
      intro t ht
      simp only [List.mem_map] at ht
      obtain ⟨w, -, rfl⟩ := ht
      exact Or.inr (Or.inl rfl)
    have hn : ∀ t ∈ (succs st.graph v PT).map (fun w => (u, w, PV)),
        t.1 ∈ u :: v :: nodesOf st.graph ∧
        t.2.1 ∈ u :: v :: nodesOf st.graph := by
      intro t ht
      simp only [List.mem_map] at ht
      obtain ⟨w, hw, rfl⟩ := ht
      refine ⟨by simp, ?_⟩
      have hm := (mem_nodesOf (mem_succs.mp hw)).2
      exact List.mem_cons_of_mem _ (List.mem_cons_of_mem _ hm)
    obtain ⟨δ, h1, h2, h3, h4, h5⟩ := addEdgeList_delta st _ hl hn
    exact ⟨δ, by rw [processEdge_Store, h1], h2, h3, h4, h5⟩
  case PTBar =>
    have hl : ∀ t ∈ (succs st.graph v Load).map (fun w => (u, w, VP)),
        t.2.2 = PT ∨ t.2.2 = PV ∨ t.2.2 = VP ∨ t.2.2 = Copy := by
      intro t ht
      simp only [List.mem_map] at ht
      obtain ⟨w, -, rfl⟩ := ht
      exact Or.inr (Or.inr (Or.inl rfl))
    have hn : ∀ t ∈ (succs st.graph v Load).map (fun w => (u, w, VP)),
        t.1 ∈ u :: v :: nodesOf st.graph ∧
        t.2.1 ∈ u :: v :: nodesOf st.graph := by
      intro t ht
      simp only [List.mem_map] at ht
      obtain ⟨w, hw, rfl⟩ := ht
      refine ⟨by simp, ?_⟩
      have hm := (mem_nodesOf (mem_succs.mp hw)).2
      exact List.mem_cons_of_mem _ (List.mem_cons_of_mem _ hm)
    obtain ⟨δ, h1, h2, h3, h4, h5⟩ := addEdgeList_delta st _ hl hn
    exact ⟨δ, by rw [processEdge_PTBar, h1], h2, h3, h4, h5⟩
  case PV =>
    have hl : ∀ t ∈ (succs st.graph v VP).map (fun w => (u, w, Copy)),
        t.2.2 = PT ∨ t.2.2 = PV ∨ t.2.2 = VP ∨ t.2.2 = Copy := by
      intro t ht
      simp only [List.mem_map] at ht
      obtain ⟨w, -, rfl⟩ := ht
      exact Or.inr (Or.inr (Or.inr rfl))
    have hn : ∀ t ∈ (succs st.graph v VP).map (fun w => (u, w, Copy)),
        t.1 ∈ u :: v :: nodesOf st.graph ∧
        t.2.1 ∈ u :: v :: nodesOf st.graph := by
      intro t ht
      simp only [List.mem_map] at ht
      obtain ⟨w, hw, rfl⟩ := ht
      refine ⟨by simp, ?_⟩
      have hm := (mem_nodesOf (mem_succs.mp hw)).2
      exact List.mem_cons_of_mem _ (List.mem_cons_of_mem _ hm)
    obtain ⟨δ, h1, h2, h3, h4, h5⟩ := addEdgeList_delta st _ hl hn
    exact ⟨δ, by rw [processEdge_PV, h1], h2, h3, h4, h5⟩
  case Load =>
    have hl : ∀ t ∈ (preds st.graph u PTBar).map (fun w => (w, v, VP)),
        t.2.2 = PT ∨ t.2.2 = PV ∨ t.2.2 = VP ∨ t.2.2 = Copy := by
      intro t ht
      simp only [List.mem_map] at ht
      obtain ⟨w, -, rfl⟩ := ht
      exact Or.inr (Or.inr (Or.inl rfl))
    have hn : ∀ t ∈ (preds st.graph u PTBar).map (fun w => (w, v, VP)),
        t.1 ∈ u :: v :: nodesOf st.graph ∧
        t.2.1 ∈ u :: v :: nodesOf st.graph := by
      intro t ht
      simp only [List.mem_map] at ht
      obtain ⟨w, hw, rfl⟩ := ht
      refine ⟨?_, by simp⟩
      have hm := (mem_nodesOf (mem_preds.mp hw)).1
      exact List.mem_cons_of_mem _ (List.mem_cons_of_mem _ hm)
    obtain ⟨δ, h1, h2, h3, h4, h5⟩ := addEdgeList_delta st _ hl hn
    exact ⟨δ, by rw [processEdge_Load, h1], h2, h3, h4, h5⟩
  case VP =>
    have hl : ∀ t ∈ (preds st.graph u PV).map (fun w => (w, v, Copy)),
        t.2.2 = PT ∨ t.2.2 = PV ∨ t.2.2 = VP ∨ t.2.2 = Copy := by
      intro t ht
      simp only [List.mem_map] at ht
      obtain ⟨w, -, rfl⟩ := ht
      exact Or.inr (Or.inr (Or.inr rfl))
    have hn : ∀ t ∈ (preds st.graph u PV).map (fun w => (w, v, Copy)),
        t.1 ∈ u :: v :: nodesOf st.graph ∧
        t.2.1 ∈ u :: v :: nodesOf st.graph := by
      intro t ht
      simp only [List.mem_map] at ht
      obtain ⟨w, hw, rfl⟩ := ht
      refine ⟨?_, by simp⟩
      have hm := (mem_nodesOf (mem_preds.mp hw)).1
      exact List.mem_cons_of_mem _ (List.mem_cons_of_mem _ hm)
    obtain ⟨δ, h1, h2, h3, h4, h5⟩ := addEdgeList_delta st _ hl hn
    exact ⟨δ, by rw [processEdge_VP, h1], h2, h3, h4, h5⟩
  case PT =>
    have hl1 : ∀ t ∈ (preds st.graph u CopyBar).map (fun w => (w, v, PT)),
        t.2.2 = PT ∨ t.2.2 = PV ∨ t.2.2 = VP ∨ t.2.2 = Copy := by
      intro t ht
      simp only [List.mem_map] at ht
      obtain ⟨w, -, rfl⟩ := ht
      exact Or.inl rfl
    have hn1 : ∀ t ∈ (preds st.graph u CopyBar).map (fun w => (w, v, PT)),
        t.1 ∈ u :: v :: nodesOf st.graph ∧
        t.2.1 ∈ u :: v :: nodesOf st.graph := by
      intro t ht
      simp only [List.mem_map] at ht
      obtain ⟨w, hw, rfl⟩ := ht
      refine ⟨?_, by simp⟩
      have hm := (mem_nodesOf (mem_preds.mp hw)).1
      exact List.mem_cons_of_mem _ (List.mem_cons_of_mem _ hm)
    obtain ⟨δ1, e1, n1, l1, d1, c1⟩ := addEdgeList_delta st _ hl1 hn1
    have hl2 : ∀ t ∈ (preds (addEdgeList st
          ((preds st.graph u CopyBar).map fun w => (w, v, PT))).graph
          u Store).map (fun w => (w, v, PV)),
        t.2.2 = PT ∨ t.2.2 = PV ∨ t.2.2 = VP ∨ t.2.2 = Copy := by
      intro t ht
      simp only [List.mem_map] at ht
      obtain ⟨w, -, rfl⟩ := ht
      exact Or.inr (Or.inl rfl)
    have hn2 : ∀ t ∈ (preds (addEdgeList st
          ((preds st.graph u CopyBar).map fun w => (w, v, PT))).graph
          u Store).map (fun w => (w, v, PV)),
        t.1 ∈ u :: v :: nodesOf st.graph ∧
        t.2.1 ∈ u :: v :: nodesOf st.graph := by
      intro t ht
      simp only [List.mem_map] at ht
      obtain ⟨w, hw, rfl⟩ := ht
      refine ⟨?_, by simp⟩
      have hmem := mem_preds.mp hw
      rw [e1] at hmem
      rcases List.mem_append.mp hmem with hm | hm
      · exact List.mem_cons_of_mem _
          (List.mem_cons_of_mem _ (mem_nodesOf hm).1)
      · exact (d1 _ hm).1
    obtain ⟨δ2, e2, n2, l2, d2, c2⟩ := addEdgeList_delta
      (addEdgeList st ((preds st.graph u CopyBar).map fun w => (w, v, PT)))
      _ hl2 hn2
    have hg1 : (addEdgeList st
        ((preds st.graph u CopyBar).map fun w => (w, v, PT))).graph =
        st.graph ++ δ1 := by rw [e1]
    refine ⟨δ1 ++ δ2, ?_, ?_, ?_, ?_, ?_⟩
    · rw [processEdge_PT, e2, e1]
      simp [List.append_assoc]
    · intro h
      rw [← List.append_assoc]
      have h2 := n2 (by rw [hg1]; exact n1 h)
      rw [hg1] at h2
      exact h2
    · intro d hd
      rcases List.mem_append.mp hd with hm | hm
      · exact l1 d hm
      · exact l2 d hm
    · intro d hd
      rcases List.mem_append.mp hd with hm | hm
      · exact d1 d hm
      · exact d2 d hm
    · intro d hd
      rw [← List.append_assoc]
      rcases List.mem_append.mp hd with hm | hm
      · obtain ⟨k1, k2⟩ := c1 d hm
        exact ⟨fun h => List.mem_append_left _ (k1 h),
          fun h => List.mem_append_left _ (k2 h)⟩
      · obtain ⟨k1, k2⟩ := c2 d hm
        rw [hg1] at k1 k2
        exact ⟨k1, k2⟩

/-- Processing a popped edge materializes every rule consequence in which it
participates as an operand, with the other operand drawn from the pre-state
graph. -/
theorem processEdge_processed (st : SolverState) (e : CFLREdge) :
    Processed st.graph (processEdge st e).graph e := by
  obtain ⟨u, v, l⟩ := e
  cases l
  case Addr =>
    refine ⟨by simp, ?_, ?_⟩ <;>
      · intro r hr h1
        simp [ruleList] at hr
        rcases hr with rfl | rfl | rfl | rfl <;> simp at h1
  case Copy =>
    refine ⟨by simp, ?_, ?_⟩ <;>
      · intro r hr h1
        simp [ruleList] at hr
        rcases hr with rfl | rfl | rfl | rfl <;> simp at h1
  case AddrBar =>
    refine ⟨?_, ?_, ?_⟩
    · intro _
      rw [processEdge_AddrBar]
      exact addEdge_ensure st u v PT
    all_goals
      intro r hr h1
      simp [ruleList] at hr
      rcases hr with rfl | rfl | rfl | rfl <;> simp at h1
  case CopyBar =>
    refine ⟨by simp, ?_, ?_⟩
    · intro r hr h1
      simp [ruleList] at hr
      rcases hr with rfl | rfl | rfl | rfl <;> try simp at h1
      intro w hw
      rw [processEdge_CopyBar, addEdgeList_eq]
      exact listDelta_ensure (u, w, PT)
        (List.mem_map_of_mem _ (mem_succs.mpr hw))
    · intro r hr h1
      simp [ruleList] at hr
      rcases hr with rfl | rfl | rfl | rfl <;> simp at h1
  case Store =>
    refine ⟨by simp, ?_, ?_⟩
    · intro r hr h1
      simp [ruleList] at hr
      rcases hr with rfl | rfl | rfl | rfl <;> try simp at h1
      intro w hw
      rw [processEdge_Store, addEdgeList_eq]
      exact listDelta_ensure (u, w, PV)
        (List.mem_map_of_mem _ (mem_succs.mpr hw))
    · intro r hr h1
      simp [ruleList] at hr
      rcases hr with rfl | rfl | rfl | rfl <;> simp at h1
  case PTBar =>
    refine ⟨by simp, ?_, ?_⟩
    · intro r hr h1
      simp [ruleList] at hr
      rcases hr with rfl | rfl | rfl | rfl <;> try simp at h1
      intro w hw
      rw [processEdge_PTBar, addEdgeList_eq]
      exact listDelta_ensure (u, w, VP)
        (List.mem_map_of_mem _ (mem_succs.mpr hw))
    · intro r hr h1
      simp [ruleList] at hr
      rcases hr with rfl | rfl | rfl | rfl <;> simp at h1
  case PV =>
    refine ⟨by simp, ?_, ?_⟩
    · intro r hr h1
      simp [ruleList] at hr
      rcases hr with rfl | rfl | rfl | rfl <;> try simp at h1
      intro w hw
      rw [processEdge_PV, addEdgeList_eq]
      exact listDelta_ensure (u, w, Copy)
        (List.mem_map_of_mem _ (mem_succs.mpr hw))
    · intro r hr h1
      simp [ruleList] at hr
      rcases hr with rfl | rfl | rfl | rfl <;> simp at h1
  case Load =>
    refine ⟨by simp, ?_, ?_⟩
    · intro r hr h1
      simp [ruleList] at hr
      rcases hr with rfl | rfl | rfl | rfl <;> simp at h1
    · intro r hr h1
      simp [ruleList] at hr
      rcases hr with rfl | rfl | rfl | rfl <;> try simp at h1
      intro w hw
      rw [processEdge_Load, addEdgeList_eq]
      exact listDelta_ensure (w, v, VP)
        (List.mem_map_of_mem _ (mem_preds.mpr hw))
  case VP =>
    refine ⟨by simp, ?_, ?_⟩
    · intro r hr h1
      simp [ruleList] at hr
      rcases hr with rfl | rfl | rfl | rfl <;> simp at h1
    · intro r hr h1
      simp [ruleList] at hr
      rcases hr with rfl | rfl | rfl | rfl <;> try simp at h1
      intro w hw
      rw [processEdge_VP, addEdgeList_eq]
      exact listDelta_ensure (w, v, Copy)
        (List.mem_map_of_mem _ (mem_preds.mpr hw))
  case PT =>
    refine ⟨by simp, ?_, ?_⟩
    · intro r hr h1
      simp [ruleList] at hr
      rcases hr with rfl | rfl | rfl | rfl <;> simp at h1
    · intro r hr h1
      simp [ruleList] at hr
      rcases hr with rfl | rfl | rfl | rfl
      · intro w hw
        have h1m : CFLREdge.mk w v PT ∈ (addEdgeList st
            ((preds st.graph u CopyBar).map fun w => (w, v, PT))).graph := by
          rw [addEdgeList_eq]
          exact listDelta_ensure (w, v, PT)
            (List.mem_map_of_mem _ (mem_preds.mpr hw))
        rw [processEdge_PT, addEdgeList_eq]
        exact List.mem_append_left _ h1m
      · intro w hw
        have h0m : CFLREdge.mk w u Store ∈ (addEdgeList st
            ((preds st.graph u CopyBar).map fun w => (w, v, PT))).graph := by
          rw [addEdgeList_eq]
          exact List.mem_append_left _ hw
        rw [processEdge_PT, addEdgeList_eq]
        exact listDelta_ensure (w, v, PV)
          (List.mem_map_of_mem _ (mem_preds.mpr h0m))
      · simp at h1
      · simp at h1

theorem nodesOf_subset {G : List CFLREdge} {ns : List Nat}
    (h : ∀ y ∈ G, y.src ∈ ns ∧ y.dst ∈ ns) :
    ∀ a ∈ nodesOf G, a ∈ ns := by
  intro a ha
  rcases List.mem_append.mp ha with hm | hm
  · obtain ⟨y, hy, rfl⟩ := List.mem_map.mp hm
    exact (h y hy).1
  · obtain ⟨y, hy, rfl⟩ := List.mem_map.mp hm
    exact (h y hy).2

/-- One solver iteration (pop an edge, process it) preserves the run
invariant; stated for any pop discipline through `hsplit`. -/
theorem runInv_step {g : List CFLREdge} {st : SolverState} {e : CFLREdge}
    {rest : List CFLREdge}
    (hsplit : ∀ x, x ∈ st.workList ↔ x = e ∨ x ∈ rest)
    (hinv : RunInv g st) :
    RunInv g (processEdge { st with workList := rest } e) := by
  have he : e ∈ st.graph := hinv.wl_sub e ((hsplit e).mpr (Or.inl rfl))
  obtain ⟨δ, heq, hnodup, hlbl, hnodes, hcs⟩ :=
    processEdge_delta { st with workList := rest } e
  have hproc := processEdge_processed { st with workList := rest } e
  rw [heq] at hproc ⊢
  refine ⟨?_, ?_, ?_, ?_, ?_, ?_, ?_, ?_⟩
  · exact hnodup hinv.nodup
  · exact fun x hx => List.mem_append_left _ (hinv.init_sub x hx)
  · intro x hx
    rcases List.mem_append.mp hx with hm | hm
    · exact List.mem_append_left _ (hinv.wl_sub x ((hsplit x).mpr (Or.inr hm)))
    · exact List.mem_append_right _ hm
  · intro x hx
    rcases List.mem_append.mp hx with hm | hm
    · exact hinv.nodes x hm
    · have hred : ∀ a, a ∈ e.src :: e.dst :: nodesOf st.graph →
          a ∈ nodesOf g := by
        intro a ha
        rcases List.mem_cons.mp ha with rfl | ha
        · exact (hinv.nodes e he).1
        rcases List.mem_cons.mp ha with rfl | ha
        · exact (hinv.nodes e he).2
        · exact nodesOf_subset hinv.nodes a ha
      exact ⟨hred _ (hnodes x hm).1, hred _ (hnodes x hm).2⟩
  · intro x hx hxg
    rcases List.mem_append.mp hx with hm | hm
    · exact hinv.fresh_lbl x hm hxg
    · exact hlbl x hm
  · refine ⟨?_, ?_⟩
    · intro a b hab hnotg
      rcases List.mem_append.mp hab with hm | hm
      · exact List.mem_append_left _ (hinv.condsym.1 a b hm hnotg)
      · exact (hcs _ hm).1 rfl
    · intro a b hab hnotg
      rcases List.mem_append.mp hab with hm | hm
      · exact List.mem_append_left _ (hinv.condsym.2 a b hm hnotg)
      · exact (hcs _ hm).2 rfl
  · refine ⟨?_, ?_⟩
    · intro a b hab
      rcases List.mem_append.mp hab with hm | hm
      · rcases hinv.winv.1 a b hm with hpt | hwl
        · exact Or.inl (List.mem_append_left _ hpt)
        · rcases (hsplit _).mp hwl with heq2 | hrest
          · subst heq2
            exact Or.inl (hproc.1 rfl)
          · exact Or.inr (List.mem_append_left _ hrest)
      · exact Or.inr (List.mem_append_right _ hm)
    · intro r hr a b c h1 h2
      rcases List.mem_append.mp h1 with hm1 | hm1
      swap
      · exact Or.inr (Or.inl (List.mem_append_right _ hm1))
      rcases List.mem_append.mp h2 with hm2 | hm2
      swap
      · exact Or.inr (Or.inr (List.mem_append_right _ hm2))
      rcases hinv.winv.2 r hr a b c hm1 hm2 with hconc | hwl1 | hwl2
      · exact Or.inl (List.mem_append_left _ hconc)
      · rcases (hsplit _).mp hwl1 with heq2 | hrest
        · subst heq2
          exact Or.inl (hproc.2.1 r hr rfl c hm2)
        · exact Or.inr (Or.inl (List.mem_append_left _ hrest))
      · rcases (hsplit _).mp hwl2 with heq2 | hrest
        · subst heq2
          exact Or.inl (hproc.2.2 r hr rfl a hm1)
        · exact Or.inr (Or.inr (List.mem_append_left _ hrest))
  · exact congrArg (· ++ δ) hinv.pushes

/-- A duplicate-free graph over the initial node universe fits in the finite
edge universe. -/
theorem graph_length_le {g G : List CFLREdge} (hnd : G.Nodup)
    (hn : ∀ x ∈ G, x.src ∈ nodesOf g ∧ x.dst ∈ nodesOf g) :
    G.length ≤ maxEdges g := by
  classical
  have hsub : G.toFinset ⊆
      (((nodesOf g).toFinset ×ˢ (nodesOf g).toFinset ×ˢ
        (derivedLabels ++ terminalLabels).toFinset).image
        (fun p : Nat × Nat × EdgeLabel => CFLREdge.mk p.1 p.2.1 p.2.2)) := by
    intro x hx
    rw [List.mem_toFinset] at hx
    refine Finset.mem_image.mpr ⟨(x.src, x.dst, x.label), ?_, ?_⟩
    · refine Finset.mem_product.mpr ⟨?_, Finset.mem_product.mpr ⟨?_, ?_⟩⟩
      · exact List.mem_toFinset.mpr (hn x hx).1
      · exact List.mem_toFinset.mpr (hn x hx).2
      · rw [List.mem_toFinset]
        cases hl : x.label <;> simp [derivedLabels, terminalLabels]
    · cases x
      rfl
  have h1 : G.length = G.toFinset.card := (List.toFinset_card_of_nodup hnd).symm
  have h2 : G.toFinset.card ≤
      ((nodesOf g).toFinset ×ˢ (nodesOf g).toFinset ×ˢ
        (derivedLabels ++ terminalLabels).toFinset).card :=
    le_trans (Finset.card_le_card hsub) Finset.card_image_le
  have h3 : ((nodesOf g).toFinset ×ˢ (nodesOf g).toFinset ×ˢ
      (derivedLabels ++ terminalLabels).toFinset).card =
      numNodes g * (numNodes g * 10) := by
    rw [Finset.card_product, Finset.card_product]
    have hN : (nodesOf g).toFinset.card = numNodes g := by
      rw [List.card_toFinset]
      rfl
    have hL : ((derivedLabels ++ terminalLabels).toFinset).card = 10 := by
      decide
    rw [hN, hL]
  rw [h1]
  rw [h3] at h2
  exact h2

/-! ### Drain-loop step equations -/

theorem drainFuel_nil {st : SolverState} (h : st.workList = []) (n : Nat) :
    drainFuel n st = st := by
  cases n with
  | zero => rfl
  | succ n => simp only [drainFuel, h]

theorem drainFuel_cons {st : SolverState} {e : CFLREdge}
    {rest : List CFLREdge} (h : st.workList = e :: rest) (n : Nat) :
    drainFuel (n + 1) st =
      drainFuel n (processEdge { st with workList := rest } e) := by
  simp only [drainFuel, h]

theorem drainFuelLifo_nil {st : SolverState} (h : st.workList = []) (n : Nat) :
    drainFuelLifo n st = st := by
  cases n with
  | zero => rfl
  | succ n => simp only [drainFuelLifo, h, List.getLast?_nil]

theorem drainFuelLifo_concat {st : SolverState} {e : CFLREdge}
    {rest : List CFLREdge} (h : st.workList = rest ++ [e]) (n : Nat) :
    drainFuelLifo (n + 1) st =
      drainFuelLifo n (processEdge { st with workList := rest } e) := by
  simp only [drainFuelLifo, h, List.getLast?_concat, List.dropLast_concat]

/-! ### Drain-loop invariants, termination and quiescence -/

theorem runInv_init {g : List CFLREdge} (hnd : g.Nodup) :
    RunInv g (initState g) := by
  refine ⟨hnd, fun x hx => hx, fun x hx => hx, fun x hx => mem_nodesOf hx,
    ?_, ?_, ?_, rfl⟩
  · intro x hx hxg
    exact absurd hx hxg
  · exact ⟨fun a b hab hnot => absurd hab hnot,
      fun a b hab hnot => absurd hab hnot⟩
  · refine ⟨?_, ?_⟩
    · intro a b hab
      exact Or.inr hab
    · intro r hr a b c h1 h2
      exact Or.inr (Or.inl h1)

theorem drainFuel_runInv {g : List CFLREdge} :
    ∀ (n : Nat) (st : SolverState), RunInv g st →
      RunInv g (drainFuel n st) := by
  intro n
  induction n with
  | zero => exact fun st h => h
  | succ n ih =>
    intro st hinv
    cases hwl : st.workList with
    | nil =>
      rw [drainFuel_nil hwl]
      exact hinv
    | cons e rest =>
      rw [drainFuel_cons hwl]
      refine ih _ (runInv_step ?_ hinv)
      intro x
      rw [hwl, List.mem_cons]

theorem drainFuelLifo_runInv {g : List CFLREdge} :
    ∀ (n : Nat) (st : SolverState), RunInv g st →
      RunInv g (drainFuelLifo n st) := by
  intro n
  induction n with
  | zero => exact fun st h => h
  | succ n ih =>
    intro st hinv
    rcases List.eq_nil_or_concat st.workList with hwl | ⟨rest, e, hwl⟩
    · rw [drainFuelLifo_nil hwl]
      exact hinv
    · rw [List.concat_eq_append] at hwl
      rw [drainFuelLifo_concat hwl]
      refine ih _ (runInv_step ?_ hinv)
      intro x
      rw [hwl]
      simp [or_comm]

theorem drainFuel_quiescent {g : List CFLREdge} :
    ∀ (fuel : Nat) (st : SolverState), RunInv g st → meas g st < fuel →
      (drainFuel fuel st).workList = [] := by
  intro fuel
  induction fuel with
  | zero =>
    intro st _ h
    omega
  | succ n ih =>
    intro st hinv hm
    cases hwl : st.workList with
    | nil =>
      rw [drainFuel_nil hwl]
      exact hwl
    | cons e rest =>
      have hsplit : ∀ x, x ∈ st.workList ↔ x = e ∨ x ∈ rest := by
        intro x
        rw [hwl, List.mem_cons]
      have hstep := runInv_step hsplit hinv
      obtain ⟨δ, heq, -, -, -, -⟩ :=
        processEdge_delta { st with workList := rest } e
      have hg2 : (processEdge { st with workList := rest } e).graph.length =
          st.graph.length + δ.length := by
        rw [heq]
        simp
      have hw2 : (processEdge { st with workList := rest } e).workList.length =
          rest.length + δ.length := by
        rw [heq]
        simp
      have hle : (processEdge { st with workList := rest } e).graph.length ≤
          maxEdges g := graph_length_le hstep.nodup hstep.nodes
      rw [hg2] at hle
      have hm2 : meas g (processEdge { st with workList := rest } e) < n := by
        have hml : st.workList.length = rest.length + 1 := by
          rw [hwl]
          rfl
        unfold meas at hm ⊢
        rw [hg2, hw2]
        rw [hml] at hm
        omega
      rw [drainFuel_cons hwl]
      exact ih _ hstep hm2

theorem drainFuelLifo_quiescent {g : List CFLREdge} :
    ∀ (fuel : Nat) (st : SolverState), RunInv g st → meas g st < fuel →
      (drainFuelLifo fuel st).workList = [] := by
  intro fuel
  induction fuel with
  | zero =>
    intro st _ h
    omega
  | succ n ih =>
    intro st hinv hm
    rcases List.eq_nil_or_concat st.workList with hwl | ⟨rest, e, hwl⟩
    · rw [drainFuelLifo_nil hwl]
      exact hwl
    · rw [List.concat_eq_append] at hwl
      have hsplit : ∀ x, x ∈ st.workList ↔ x = e ∨ x ∈ rest := by
        intro x
        rw [hwl]
        simp [or_comm]
      have hstep := runInv_step hsplit hinv
      obtain ⟨δ, heq, -, -, -, -⟩ :=
        processEdge_delta { st with workList := rest } e
      have hg2 : (processEdge { st with workList := rest } e).graph.length =
          st.graph.length + δ.length := by
        rw [heq]
        simp
      have hw2 : (processEdge { st with workList := rest } e).workList.length =
          rest.length + δ.length := by
        rw [heq]
        simp
      have hle : (processEdge { st with workList := rest } e).graph.length ≤
          maxEdges g := graph_length_le hstep.nodup hstep.nodes
      rw [hg2] at hle
      have hm2 : meas g (processEdge { st with workList := rest } e) < n := by
        have hml : st.workList.length = rest.length + 1 := by
          rw [hwl]
          simp
        unfold meas at hm ⊢
        rw [hg2, hw2]
        rw [hml] at hm
        omega
      rw [drainFuelLifo_concat hwl]
      exact ih _ hstep hm2

theorem meas_init_lt {g : List CFLREdge} :
    meas g (initState g) < fuelFor g := by
  show 2 * (maxEdges g - g.length) + g.length < 2 * maxEdges g + g.length + 1
  omega

theorem solveState_runInv {g : List CFLREdge} (hnd : g.Nodup) :
    RunInv g (solveState g) :=
  drainFuel_runInv _ _ (runInv_init hnd)

theorem solveState_quiescent {g : List CFLREdge} (hnd : g.Nodup) :
    (solveState g).workList = [] :=
  drainFuel_quiescent _ _ (runInv_init hnd) meas_init_lt

theorem solveStateLifo_runInv {g : List CFLREdge} (hnd : g.Nodup) :
    RunInv g (solveStateLifo g) :=
  drainFuelLifo_runInv _ _ (runInv_init hnd)

theorem solveStateLifo_quiescent {g : List CFLREdge} (hnd : g.Nodup) :
    (solveStateLifo g).workList = [] :=
  drainFuelLifo_quiescent _ _ (runInv_init hnd) meas_init_lt

/-! ### Soundness: the graph stays inside any closed superset -/

theorem addEdge_subsetT {g : List CFLREdge} {T : CFLREdge → Prop}
    {st : SolverState} {u v : Nat} {l : EdgeLabel}
    (hcs : CondSymClosed g T) (hg : ∀ x ∈ g, x ∈ st.graph)
    (hsub : ∀ x ∈ st.graph, T x) (hT : T (CFLREdge.mk u v l)) :
    ∀ x ∈ (addEdge st u v l).graph, T x := by
  rw [addEdge_eq]
  intro x hx
  rcases List.mem_append.mp hx with hm | hm
  · exact hsub x hm
  · have hbase : CFLREdge.mk u v l ∉ st.graph := by
      intro hb
      simp [addDelta, hasEdge, hb] at hm
    have hbaseg : CFLREdge.mk u v l ∉ g := fun hxg => hbase (hg _ hxg)
    obtain ⟨-, hc⟩ := addDelta_cases x hm
    rcases hc with rfl | ⟨rfl, rfl⟩ | ⟨rfl, rfl⟩
    · exact hT
    · exact hcs.1 u v hT hbaseg
    · exact hcs.2 u v hT hbaseg

theorem addEdgeList_subsetT {g : List CFLREdge} {T : CFLREdge → Prop}
    (hcs : CondSymClosed g T) :
    ∀ (ts : List (Nat × Nat × EdgeLabel)) (st : SolverState),
      (∀ x ∈ g, x ∈ st.graph) → (∀ x ∈ st.graph, T x) →
      (∀ t ∈ ts, T (CFLREdge.mk t.1 t.2.1 t.2.2)) →
      ∀ x ∈ (addEdgeList st ts).graph, T x := by
  intro ts
  induction ts with
  | nil => exact fun st _ hsub _ x hx => hsub x hx
  | cons t ts ih =>
    intro st hg hsub hts
    have hstep : addEdgeList st (t :: ts) =
        addEdgeList (addEdge st t.1 t.2.1 t.2.2) ts := rfl
    rw [hstep]
    refine ih _ ?_ ?_ ?_
    · intro x hx
      rw [addEdge_eq]
      exact List.mem_append_left _ (hg x hx)
    · exact addEdge_subsetT hcs hg hsub (hts t (List.mem_cons_self _ _))
    · exact fun t' ht' => hts t' (List.mem_cons_of_mem _ ht')

theorem processEdge_subsetT {g : List CFLREdge} {T : CFLREdge → Prop}
    {st : SolverState} {e : CFLREdge}
    (hGC : GrammarClosed T) (hcs : CondSymClosed g T)
    (hg : ∀ x ∈ g, x ∈ st.graph) (hsub : ∀ x ∈ st.graph, T x) (heT : T e) :
    ∀ x ∈ (processEdge st e).graph, T x := by
  obtain ⟨u, v, l⟩ := e
  cases l
  case Addr =>
    rw [processEdge_Addr]
    exact hsub
  case Copy =>
    rw [processEdge_Copy]
    exact hsub
  case AddrBar =>
    rw [processEdge_AddrBar]
    exact addEdge_subsetT hcs hg hsub (hGC.1 u v heT)
  case CopyBar =>
    rw [processEdge_CopyBar]
    refine addEdgeList_subsetT hcs _ st hg hsub ?_
    intro t ht
    simp only [List.mem_map] at ht
    obtain ⟨w, hw, rfl⟩ := ht
    exact hGC.2 (CopyBar, PT, PT) (by simp [ruleList]) u v w heT
      (hsub _ (mem_succs.mp hw))
  case Store =>
    rw [processEdge_Store]
    refine addEdgeList_subsetT hcs _ st hg hsub ?_
    intro t ht
    simp only [List.mem_map] at ht
    obtain ⟨w, hw, rfl⟩ := ht
    exact hGC.2 (Store, PT, PV) (by simp [ruleList]) u v w heT
      (hsub _ (mem_succs.mp hw))
  case PTBar =>
    rw [processEdge_PTBar]
    refine addEdgeList_subsetT hcs _ st hg hsub ?_
    intro t ht
    simp only [List.mem_map] at ht
    obtain ⟨w, hw, rfl⟩ := ht
    exact hGC.2 (PTBar, Load, VP) (by simp [ruleList]) u v w heT
      (hsub _ (mem_succs.mp hw))
  case PV =>
    rw [processEdge_PV]
    refine addEdgeList_subsetT hcs _ st hg hsub ?_
    intro t ht
    simp only [List.mem_map] at ht
    obtain ⟨w, hw, rfl⟩ := ht
    exact hGC.2 (PV, VP, Copy) (by simp [ruleList]) u v w heT
      (hsub _ (mem_succs.mp hw))
  case Load =>
    rw [processEdge_Load]
    refine addEdgeList_subsetT hcs _ st hg hsub ?_
    intro t ht
    simp only [List.mem_map] at ht
    obtain ⟨w, hw, rfl⟩ := ht
    exact hGC.2 (PTBar, Load, VP) (by simp [ruleList]) w u v
      (hsub _ (mem_preds.mp hw)) heT
  case VP =>
    rw [processEdge_VP]
    refine addEdgeList_subsetT hcs _ st hg hsub ?_
    intro t ht
    simp only [List.mem_map] at ht
    obtain ⟨w, hw, rfl⟩ := ht
    exact hGC.2 (PV, VP, Copy) (by simp [ruleList]) w u v
      (hsub _ (mem_preds.mp hw)) heT
  case PT =>
    rw [processEdge_PT]
    have hsubA : ∀ x ∈ (addEdgeList st
        ((preds st.graph u CopyBar).map fun w => (w, v, PT))).graph, T x := by
      refine addEdgeList_subsetT hcs _ st hg hsub ?_
      intro t ht
      simp only [List.mem_map] at ht
      obtain ⟨w, hw, rfl⟩ := ht
      exact hGC.2 (CopyBar, PT, PT) (by simp [ruleList]) w u v
        (hsub _ (mem_preds.mp hw)) heT
    have hgA : ∀ x ∈ g, x ∈ (addEdgeList st
        ((preds st.graph u CopyBar).map fun w => (w, v, PT))).graph := by
      intro x hx
      rw [addEdgeList_eq]
      exact List.mem_append_left _ (hg x hx)
    refine addEdgeList_subsetT hcs _ _ hgA hsubA ?_
    intro t ht
    simp only [List.mem_map] at ht
    obtain ⟨w, hw, rfl⟩ := ht
    exact hGC.2 (Store, PT, PV) (by simp [ruleList]) w u v
      (hsubA _ (mem_preds.mp hw)) heT

theorem drainFuel_subsetT {g : List CFLREdge} {T : CFLREdge → Prop}
    (hGC : GrammarClosed T) (hcs : CondSymClosed g T) :
    ∀ (n : Nat) (st : SolverState), RunInv g st → (∀ x ∈ st.graph, T x) →
      ∀ x ∈ (drainFuel n st).graph, T x := by
  intro n
  induction n with
  | zero => exact fun st _ hsub => hsub
  | succ n ih =>
    intro st hinv hsub
    cases hwl : st.workList with
    | nil =>
      rw [drainFuel_nil hwl]
      exact hsub
    | cons e rest =>
      rw [drainFuel_cons hwl]
      have hsplit : ∀ x, x ∈ st.workList ↔ x = e ∨ x ∈ rest := fun x => by
        rw [hwl, List.mem_cons]
      refine ih _ (runInv_step hsplit hinv) ?_
      exact processEdge_subsetT hGC hcs hinv.init_sub hsub
        (hsub e (hinv.wl_sub e ((hsplit e).mpr (Or.inl rfl))))

theorem drainFuelLifo_subsetT {g : List CFLREdge} {T : CFLREdge → Prop}
    (hGC : GrammarClosed T) (hcs : CondSymClosed g T) :
    ∀ (n : Nat) (st : SolverState), RunInv g st → (∀ x ∈ st.graph, T x) →
      ∀ x ∈ (drainFuelLifo n st).graph, T x := by
  intro n
  induction n with
  | zero => exact fun st _ hsub => hsub
  | succ n ih =>
    intro st hinv hsub
    rcases List.eq_nil_or_concat st.workList with hwl | ⟨rest, e, hwl⟩
    · rw [drainFuelLifo_nil hwl]
      exact hsub
    · rw [List.concat_eq_append] at hwl
      rw [drainFuelLifo_concat hwl]
      have hsplit : ∀ x, x ∈ st.workList ↔ x = e ∨ x ∈ rest := fun x => by
        rw [hwl]
        simp [or_comm]
      refine ih _ (runInv_step hsplit hinv) ?_
      exact processEdge_subsetT hGC hcs hinv.init_sub hsub
        (hsub e (hinv.wl_sub e ((hsplit e).mpr (Or.inl rfl))))

theorem solveGraph_subsetT {g : List CFLREdge} {T : CFLREdge → Prop}
    (hnd : g.Nodup) (hGC : GrammarClosed T) (hcs : CondSymClosed g T)
    (hg0 : ∀ x ∈ g, T x) : ∀ x ∈ solveGraph g, T x :=
  drainFuel_subsetT hGC hcs _ _ (runInv_init hnd) hg0

theorem solveGraphLifo_subsetT {g : List CFLREdge} {T : CFLREdge → Prop}
    (hnd : g.Nodup) (hGC : GrammarClosed T) (hcs : CondSymClosed g T)
    (hg0 : ∀ x ∈ g, T x) : ∀ x ∈ solveGraphLifo g, T x :=
  drainFuelLifo_subsetT hGC hcs _ _ (runInv_init hnd) hg0

/-! ### Symmetry preservation -/

theorem symGraph_init {g : List CFLREdge} (h1 : NoPTInit g)
    (h2 : CopySymInit g) : SymGraph g := by
  intro a b
  refine ⟨⟨?_, ?_⟩, ⟨?_, ?_⟩⟩
  · intro h
    exact absurd rfl ((h1 _ h).1)
  · intro h
    exact absurd rfl ((h1 _ h).2)
  · intro h
    exact (h2 _ h).1 rfl
  · intro h
    exact (h2 _ h).2 rfl

theorem addEdge_symGraph {st : SolverState} {u v : Nat} {l : EdgeLabel}
    (hsym : SymGraph st.graph) (h1 : l ≠ PTBar) (h2 : l ≠ CopyBar) :
    SymGraph (addEdge st u v l).graph := by
  rw [addEdge_eq]
  intro a b
  refine ⟨⟨?_, ?_⟩, ⟨?_, ?_⟩⟩
  · intro hx
    rcases List.mem_append.mp hx with hm | hm
    · exact List.mem_append_left _ ((hsym a b).1.mp hm)
    · exact (addDelta_condsym _ hm).1 rfl
  · intro hx
    rcases List.mem_append.mp hx with hm | hm
    · exact List.mem_append_left _ ((hsym a b).1.mpr hm)
    · obtain ⟨-, hc⟩ := addDelta_cases _ hm
      rcases hc with heq | ⟨rfl, heq⟩ | ⟨rfl, heq⟩
      · have hlab := congrArg CFLREdge.label heq
        exact absurd hlab.symm h1
      · injection heq with hb ha hlab0
        subst hb
        subst ha
        exact addDelta_ensure _ _ _ _
      · have hlab := congrArg CFLREdge.label heq
        simp at hlab
  · intro hx
    rcases List.mem_append.mp hx with hm | hm
    · exact List.mem_append_left _ ((hsym a b).2.mp hm)
    · exact (addDelta_condsym _ hm).2 rfl
  · intro hx
    rcases List.mem_append.mp hx with hm | hm
    · exact List.mem_append_left _ ((hsym a b).2.mpr hm)
    · obtain ⟨-, hc⟩ := addDelta_cases _ hm
      rcases hc with heq | ⟨rfl, heq⟩ | ⟨rfl, heq⟩
      · have hlab := congrArg CFLREdge.label heq
        exact absurd hlab.symm h2
      · have hlab := congrArg CFLREdge.label heq
        simp at hlab
      · injection heq with hb ha hlab0
        subst hb
        subst ha
        exact addDelta_ensure _ _ _ _

theorem addEdgeList_symGraph :
    ∀ (ts : List (Nat × Nat × EdgeLabel)) (st : SolverState),
      SymGraph st.graph →
      (∀ t ∈ ts, t.2.2 ≠ PTBar ∧ t.2.2 ≠ CopyBar) →
      SymGraph (addEdgeList st ts).graph := by
  intro ts
  induction ts with
  | nil => exact fun st h _ => h
  | cons t ts ih =>
    intro st hsym hts
    have hstep : addEdgeList st (t :: ts) =
        addEdgeList (addEdge st t.1 t.2.1 t.2.2) ts := rfl
    rw [hstep]
    exact ih _
      (addEdge_symGraph hsym (hts t (List.mem_cons_self _ _)).1
        (hts t (List.mem_cons_self _ _)).2)
      (fun t' ht' => hts t' (List.mem_cons_of_mem _ ht'))

theorem processEdge_symGraph {st : SolverState} {e : CFLREdge}
    (hsym : SymGraph st.graph) : SymGraph (processEdge st e).graph := by
  obtain ⟨u, v, l⟩ := e
  cases l
  case Addr =>
    rw [processEdge_Addr]
    exact hsym
  case Copy =>
    rw [processEdge_Copy]
    exact hsym
  case AddrBar =>
    rw [processEdge_AddrBar]
    exact addEdge_symGraph hsym (by simp) (by simp)
  case CopyBar =>
    rw [processEdge_CopyBar]
    refine addEdgeList_symGraph _ st hsym ?_
    intro t ht
    simp only [List.mem_map] at ht
    obtain ⟨w, -, rfl⟩ := ht
    exact ⟨by simp, by simp⟩
  case Store =>
    rw [processEdge_Store]
    refine addEdgeList_symGraph _ st hsym ?_
    intro t ht
    simp only [List.mem_map] at ht
    obtain ⟨w, -, rfl⟩ := ht
    exact ⟨by simp, by simp⟩
  case PTBar =>
    rw [processEdge_PTBar]
    refine addEdgeList_symGraph _ st hsym ?_
    intro t ht
    simp only [List.mem_map] at ht
    obtain ⟨w, -, rfl⟩ := ht
    exact ⟨by simp, by simp⟩
  case PV =>
    rw [processEdge_PV]
    refine addEdgeList_symGraph _ st hsym ?_
    intro t ht
    simp only [List.mem_map] at ht
    obtain ⟨w, -, rfl⟩ := ht
    exact ⟨by simp, by simp⟩
  case Load =>
    rw [processEdge_Load]
    refine addEdgeList_symGraph _ st hsym ?_
    intro t ht
    simp only [List.mem_map] at ht
    obtain ⟨w, -, rfl⟩ := ht
    exact ⟨by simp, by simp⟩
  case VP =>
    rw [processEdge_VP]
    refine addEdgeList_symGraph _ st hsym ?_
    intro t ht
    simp only [List.mem_map] at ht
    obtain ⟨w, -, rfl⟩ := ht
    exact ⟨by simp, by simp⟩
  case PT =>
    rw [processEdge_PT]
    refine addEdgeList_symGraph _ _ ?_ ?_
    · refine addEdgeList_symGraph _ st hsym ?_
      intro t ht
      simp only [List.mem_map] at ht
      obtain ⟨w, -, rfl⟩ := ht
      exact ⟨by simp, by simp⟩
    · intro t ht
      simp only [List.mem_map] at ht
      obtain ⟨w, -, rfl⟩ := ht
      exact ⟨by simp, by simp⟩

theorem drainFuel_symGraph :
    ∀ (n : Nat) (st : SolverState), SymGraph st.graph →
      SymGraph (drainFuel n st).graph := by
  intro n
  induction n with
  | zero => exact fun st h => h
  | succ n ih =>
    intro st hsym
    cases hwl : st.workList with
    | nil =>
      rw [drainFuel_nil hwl]
      exact hsym
    | cons e rest =>
      rw [drainFuel_cons hwl]
      exact ih _ (processEdge_symGraph hsym)

/-! ### Monotone growth of the graph along the drain loop -/

theorem processEdge_graph_mono {st : SolverState} {e : CFLREdge} :
    ∀ x ∈ st.graph, x ∈ (processEdge st e).graph := by
  obtain ⟨δ, heq, -, -, -, -⟩ := processEdge_delta st e
  rw [heq]
  exact fun x hx => List.mem_append_left _ hx

theorem drainFuel_graph_mono :
    ∀ (n : Nat) (st : SolverState), ∀ x ∈ st.graph,
      x ∈ (drainFuel n st).graph := by
  intro n
  induction n with
  | zero => exact fun st x hx => hx
  | succ n ih =>
    intro st x hx
    cases hwl : st.workList with
    | nil =>
      rw [drainFuel_nil hwl]
      exact hx
    | cons e rest =>
      rw [drainFuel_cons hwl]
      exact ih _ x (processEdge_graph_mono x hx)

theorem drainFuel_succ_graph_mono :
    ∀ (n : Nat) (st : SolverState), ∀ x ∈ (drainFuel n st).graph,
      x ∈ (drainFuel (n + 1) st).graph := by
  intro n
  induction n with
  | zero => exact fun st => drainFuel_graph_mono 1 st
  | succ n ih =>
    intro st x hx
    cases hwl : st.workList with
    | nil =>
      rw [drainFuel_nil hwl]
      rw [drainFuel_nil hwl] at hx
      exact hx
    | cons e rest =>
      rw [drainFuel_cons hwl] at hx
      rw [drainFuel_cons hwl]
      exact ih _ x hx

theorem drainFuel_add :
    ∀ (a b : Nat) (st : SolverState),
      drainFuel (a + b) st = drainFuel b (drainFuel a st) := by
  intro a
  induction a with
  | zero =>
    intro b st
    rw [Nat.zero_add]
    rfl
  | succ a ih =>
    intro b st
    cases hwl : st.workList with
    | nil => simp only [drainFuel_nil hwl]
    | cons e rest =>
      have h1 : a + 1 + b = (a + b) + 1 := by omega
      rw [h1, drainFuel_cons hwl, drainFuel_cons hwl, ih]

theorem drainFuel_le_mono {n m : Nat} (h : n ≤ m) (st : SolverState) :
    ∀ x ∈ (drainFuel n st).graph, x ∈ (drainFuel m st).graph := by
  intro x hx
  have hm : m = n + (m - n) := by omega
  rw [hm, drainFuel_add]
  exact drainFuel_graph_mono _ _ x hx

theorem drainFuel_ge {st : SolverState} {f : Nat}
    (h : (drainFuel f st).workList = []) {m : Nat} (hm : f ≤ m) :
    drainFuel m st = drainFuel f st := by
  have h1 : m = f + (m - f) := by omega
  rw [h1, drainFuel_add, drainFuel_nil h]

theorem mem_drain_mem_solve {g : List CFLREdge} (hnd : g.Nodup) :
    ∀ (n : Nat) (x : CFLREdge), x ∈ (drainFuel n (initState g)).graph →
      x ∈ solveGraph g := by
  intro n x hx
  by_cases h : n ≤ fuelFor g
  · exact drainFuel_le_mono h _ x hx
  · have heq := drainFuel_ge (solveState_quiescent hnd)
      (le_of_not_le h)
    rw [heq] at hx
    exact hx

/-! ### Closure of the saturated graph -/

theorem solveGraph_grammarClosed {g : List CFLREdge} (hnd : g.Nodup) :
    GrammarClosed (fun x => x ∈ solveGraph g) := by
  have hinv := solveState_runInv hnd
  have hq := solveState_quiescent hnd
  refine ⟨?_, ?_⟩
  · intro a b hab
    rcases hinv.winv.1 a b hab with h | h
    · exact h
    · rw [hq] at h
      simp at h
  · intro r hr a b c hab hbc
    rcases hinv.winv.2 r hr a b c hab hbc with h | h | h
    · exact h
    · rw [hq] at h
      simp at h
    · rw [hq] at h
      simp at h

theorem solveGraph_condSymClosed {g : List CFLREdge} (hnd : g.Nodup) :
    CondSymClosed g (fun x => x ∈ solveGraph g) :=
  (solveState_runInv hnd).condsym

theorem solveGraphLifo_grammarClosed {g : List CFLREdge} (hnd : g.Nodup) :
    GrammarClosed (fun x => x ∈ solveGraphLifo g) := by
  have hinv := solveStateLifo_runInv hnd
  have hq := solveStateLifo_quiescent hnd
  refine ⟨?_, ?_⟩
  · intro a b hab
    rcases hinv.winv.1 a b hab with h | h
    · exact h
    · rw [hq] at h
      simp at h
  · intro r hr a b c hab hbc
    rcases hinv.winv.2 r hr a b c hab hbc with h | h | h
    · exact h
    · rw [hq] at h
      simp at h
    · rw [hq] at h
      simp at h

theorem solveGraphLifo_condSymClosed {g : List CFLREdge} (hnd : g.Nodup) :
    CondSymClosed g (fun x => x ∈ solveGraphLifo g) :=
  (solveStateLifo_runInv hnd).condsym

/-! ### Claims -/

/-- C2: assuming the initial graph contains no PT or PTBar edges and initial
Copy/CopyBar edges are mutually inverse, every solver insertion step preserves
PT/PTBar and Copy/CopyBar symmetry, every intermediate snapshot of the drain
loop is symmetric, and so is the final graph. -/
theorem c2_symmetry_invariant (g : List CFLREdge) (h1 : NoPTInit g)
    (h2 : CopySymInit g) :
    (∀ (st : SolverState) (u v : Nat) (l : EdgeLabel), SymGraph st.graph →
      l ≠ PTBar → l ≠ CopyBar → SymGraph (addEdge st u v l).graph) ∧
    (∀ n : Nat, SymGraph (drainFuel n (initState g)).graph) ∧
    SymGraph (solveGraph g) := by
  refine ⟨fun st u v l hs hl1 hl2 => addEdge_symGraph hs hl1 hl2, ?_, ?_⟩
  · intro n
    exact drainFuel_symGraph n _ (symGraph_init h1 h2)
  · exact drainFuel_symGraph _ _ (symGraph_init h1 h2)

theorem c2_witness :
    NoPTInit [CFLREdge.mk 0 1 AddrBar, CFLREdge.mk 2 0 Copy,
      CFLREdge.mk 0 2 CopyBar] ∧
    CopySymInit [CFLREdge.mk 0 1 AddrBar, CFLREdge.mk 2 0 Copy,
      CFLREdge.mk 0 2 CopyBar] ∧
    SymGraph (solveGraph [CFLREdge.mk 0 1 AddrBar, CFLREdge.mk 2 0 Copy,
      CFLREdge.mk 0 2 CopyBar]) :=
  ⟨by decide, by decide,
    (c2_symmetry_invariant _ (by decide) (by decide)).2.2⟩

/-- C3: the graph grows monotonically along the drain loop; no edge is ever
deleted, and every initial edge is still present in the final graph. -/
theorem c3_solve_monotone :
    ∀ (g : List CFLREdge) (n : Nat) (x : CFLREdge),
      (x ∈ (drainFuel n (initState g)).graph →
        x ∈ (drainFuel (n + 1) (initState g)).graph) ∧
      (x ∈ g → x ∈ solveGraph g) :=
  fun g n x =>
    ⟨drainFuel_succ_graph_mono n (initState g) x,
     fun hx => drainFuel_graph_mono (fuelFor g) (initState g) x hx⟩

theorem c3_witness :
    CFLREdge.mk 0 1 AddrBar ∈ solveGraph [CFLREdge.mk 0 1 AddrBar] :=
  (c3_solve_monotone [CFLREdge.mk 0 1 AddrBar] 0 (CFLREdge.mk 0 1 AddrBar)).2
    (by decide)

/-- C4: on every duplicate-free finite initial graph, the drain loop empties
the worklist within the provided fuel, and supplying any more fuel does not
change the result — `solve()` terminates. -/
theorem c4_solve_terminates (g : List CFLREdge) (hnd : g.Nodup) :
    (solveState g).workList = [] ∧
    ∀ m : Nat, fuelFor g ≤ m → drainFuel m (initState g) = solveState g := by
  refine ⟨solveState_quiescent hnd, ?_⟩
  intro m hm
  exact drainFuel_ge (solveState_quiescent hnd) hm

theorem c4_witness :
    ([CFLREdge.mk 0 1 AddrBar] : List CFLREdge).Nodup ∧
    (solveState [CFLREdge.mk 0 1 AddrBar]).workList = [] :=
  ⟨by decide, (c4_solve_terminates _ (by decide)).1⟩

/-- C5: the push log of an entire run coincides with the final graph, which
is duplicate-free — so every edge ever present in the graph (at any step) is
pushed onto the worklist exactly once. -/
theorem c5_enqueued_exactly_once (g : List CFLREdge) (hnd : g.Nodup) :
    (solveState g).pushLog = (solveState g).graph ∧
    (solveState g).graph.Nodup ∧
    ∀ (n : Nat) (x : CFLREdge), x ∈ (drainFuel n (initState g)).graph →
      List.count x (solveState g).pushLog = 1 := by
  have hinv := solveState_runInv hnd
  refine ⟨hinv.pushes, hinv.nodup, ?_⟩
  intro n x hx
  rw [hinv.pushes]
  exact List.count_eq_one_of_mem hinv.nodup (mem_drain_mem_solve hnd n x hx)

theorem c5_witness :
    List.count (CFLREdge.mk 0 1 AddrBar)
      (solveState [CFLREdge.mk 0 1 AddrBar]).pushLog = 1 :=
  (c5_enqueued_exactly_once [CFLREdge.mk 0 1 AddrBar] (by decide)).2.2 0
    (CFLREdge.mk 0 1 AddrBar) (by decide)

/-- C7: on the initial graph AddrBar(p,o), Store(p,p), Load(p,r) with p = 0,
o = 1, r = 2, the saturated graph contains PT(p,o), Copy(p,r) and PT(r,o). -/
theorem c7_self_store_load :
    CFLREdge.mk 0 1 PT ∈ solveGraph [CFLREdge.mk 0 1 AddrBar,
      CFLREdge.mk 0 0 Store, CFLREdge.mk 0 2 Load] ∧
    CFLREdge.mk 0 2 Copy ∈ solveGraph [CFLREdge.mk 0 1 AddrBar,
      CFLREdge.mk 0 0 Store, CFLREdge.mk 0 2 Load] ∧
    CFLREdge.mk 2 1 PT ∈ solveGraph [CFLREdge.mk 0 1 AddrBar,
      CFLREdge.mk 0 0 Store, CFLREdge.mk 0 2 Load] := by
  decide

/-- C8: `addEdge` is a no-op when the edge exists; for a new edge it inserts
and enqueues it, inserts the PTBar (resp. CopyBar) inverse exactly for PT
(resp. Copy), enqueueing the inverse when it is new, and for every other
label appends exactly the one edge to graph, worklist and push log. -/
theorem c8_addEdge_frame (st : SolverState) (u v : Nat) (l : EdgeLabel) :
    (CFLREdge.mk u v l ∈ st.graph → addEdge st u v l = st) ∧
    (CFLREdge.mk u v l ∉ st.graph →
      CFLREdge.mk u v l ∈ (addEdge st u v l).graph ∧
      CFLREdge.mk u v l ∈ (addEdge st u v l).workList ∧
      (l = PT → CFLREdge.mk v u PTBar ∈ (addEdge st u v l).graph ∧
        (CFLREdge.mk v u PTBar ∉ st.graph →
          CFLREdge.mk v u PTBar ∈ (addEdge st u v l).workList)) ∧
      (l = Copy → CFLREdge.mk v u CopyBar ∈ (addEdge st u v l).graph ∧
        (CFLREdge.mk v u CopyBar ∉ st.graph →
          CFLREdge.mk v u CopyBar ∈ (addEdge st u v l).workList)) ∧
      (l ≠ PT → l ≠ Copy →
        addEdge st u v l =
          { graph := st.graph ++ [CFLREdge.mk u v l],
            workList := st.workList ++ [CFLREdge.mk u v l],
            pushLog := st.pushLog ++ [CFLREdge.mk u v l] })) := by
  constructor
  · intro h
    simp [addEdge, hasEdge, h]
  · intro h
    have hmemδ : CFLREdge.mk u v l ∈ addDelta st.graph u v l := by
      unfold addDelta
      split_ifs with h1 h2 h3 h4 h5 <;> simp_all [hasEdge]
    refine ⟨?_, ?_, ?_, ?_, ?_⟩
    · rw [addEdge_eq]
      exact addDelta_ensure _ _ _ _
    · rw [addEdge_eq]
      exact List.mem_append_right _ hmemδ
    · rintro rfl
      refine ⟨by rw [addEdge_eq]; exact addDelta_twin_PT h, ?_⟩
      intro h2
      rw [addEdge_eq]
      refine List.mem_append_right _ ?_
      simp [addDelta, hasEdge, h, h2]
    · rintro rfl
      refine ⟨by rw [addEdge_eq]; exact addDelta_twin_Copy h, ?_⟩
      intro h2
      rw [addEdge_eq]
      refine List.mem_append_right _ ?_
      simp [addDelta, hasEdge, h, h2]
    · intro hP hC
      have hδ : addDelta st.graph u v l = [CFLREdge.mk u v l] := by
        simp [addDelta, hasEdge, h, hP, hC]
      rw [addEdge_eq, hδ]

theorem c8_witness :
    CFLREdge.mk 0 1 PT ∉ (SolverState.mk [] [] []).graph ∧
    CFLREdge.mk 0 1 PT ∈ (addEdge (SolverState.mk [] [] []) 0 1 PT).graph ∧
    CFLREdge.mk 1 0 PTBar ∈ (addEdge (SolverState.mk [] [] []) 0 1 PT).graph := by
  have h := (c8_addEdge_frame (SolverState.mk [] [] []) 0 1 PT).2 (by decide)
  exact ⟨by decide, h.1, (h.2.2.1 rfl).1⟩

/-- C10: terminal-labeled (Addr, AddrBar, Store, Load) edges after `solve()`
are exactly those present before, and every edge the solver inserts carries a
derived label (PT, PTBar, Copy, CopyBar, PV, VP). -/
theorem c10_terminal_frame (g : List CFLREdge) (hnd : g.Nodup) :
    (∀ x : CFLREdge, x.label ∈ terminalLabels → (x ∈ solveGraph g ↔ x ∈ g)) ∧
    ∀ x ∈ solveGraph g, x ∉ g → x.label ∈ derivedLabels := by
  have hinv := solveState_runInv hnd
  refine ⟨?_, hinv.fresh_lbl⟩
  intro x hterm
  constructor
  · intro hx
    by_contra hxg
    have hd := hinv.fresh_lbl x hx hxg
    cases hlab : x.label <;> rw [hlab] at hterm hd <;>
      simp [terminalLabels, derivedLabels] at hterm hd
  · intro hx
    exact hinv.init_sub x hx

theorem c10_witness :
    (CFLREdge.mk 0 1 AddrBar ∈ solveGraph [CFLREdge.mk 0 1 AddrBar] ↔
      CFLREdge.mk 0 1 AddrBar ∈ [CFLREdge.mk 0 1 AddrBar]) :=
  (c10_terminal_frame [CFLREdge.mk 0 1 AddrBar] (by decide)).1
    (CFLREdge.mk 0 1 AddrBar) (by decide)

/-- C1 counterexample: on the initial graph consisting of the single edge
PT(0,1), the saturated graph is not closed under the symmetry rule (it lacks
PTBar(1,0)), hence it is not the least set containing the initial edges and
closed under the grammar and the symmetry rule, contradicting the claim as
stated for arbitrary initial graphs. -/
theorem c1_counterexample :
    ¬ IsLeastSolution [CFLREdge.mk 0 1 PT]
      (fun x => x ∈ solveGraph [CFLREdge.mk 0 1 PT]) := by
  intro h
  have h1 : CFLREdge.mk 1 0 PTBar ∈ solveGraph [CFLREdge.mk 0 1 PT] :=
    h.2.2.1.1 0 1 (by decide)
  exact absurd h1 (by decide)

/-- C1 (amended): for every duplicate-free initial graph with no PT/PTBar
edges and mutually inverse Copy/CopyBar edges (the frontend contract), the
edge set after `solve()` is the least set of labeled edges containing the
initial edges, closed under the grammar, and closed under the solver's
symmetry rule for PT/PTBar and Copy/CopyBar. -/
theorem c1_least_solution (g : List CFLREdge) (hnd : g.Nodup)
    (h1 : NoPTInit g) (h2 : CopySymInit g) :
    IsLeastSolution g (fun x => x ∈ solveGraph g) := by
  have hsym : SymGraph (solveGraph g) :=
    drainFuel_symGraph _ _ (symGraph_init h1 h2)
  refine ⟨(solveState_runInv hnd).init_sub, solveGraph_grammarClosed hnd,
    ⟨fun a b hab => (hsym a b).1.mp hab,
     fun a b hab => (hsym a b).2.mp hab⟩, ?_⟩
  intro T' hcont hGC hSS x hx
  refine solveGraph_subsetT hnd hGC ?_ hcont x hx
  exact ⟨fun a b hab _ => hSS.1 a b hab, fun a b hab _ => hSS.2 a b hab⟩

theorem c1_witness :
    ([CFLREdge.mk 0 1 AddrBar] : List CFLREdge).Nodup ∧
    IsLeastSolution [CFLREdge.mk 0 1 AddrBar]
      (fun x => x ∈ solveGraph [CFLREdge.mk 0 1 AddrBar]) :=
  ⟨by decide, c1_least_solution _ (by decide) (by decide) (by decide)⟩

/-- C6: on every duplicate-free initial graph, the FIFO run and the LIFO run
of the solver produce equal saturated edge sets. -/
theorem c6_order_independent (g : List CFLREdge) (hnd : g.Nodup) :
    ∀ x : CFLREdge, x ∈ solveGraph g ↔ x ∈ solveGraphLifo g := by
  intro x
  constructor
  · intro hx
    exact solveGraph_subsetT hnd (solveGraphLifo_grammarClosed hnd)
      (solveGraphLifo_condSymClosed hnd)
      (solveStateLifo_runInv hnd).init_sub x hx
  · intro hx
    exact solveGraphLifo_subsetT hnd (solveGraph_grammarClosed hnd)
      (solveGraph_condSymClosed hnd)
      (solveState_runInv hnd).init_sub x hx

theorem c6_witness :
    CFLREdge.mk 0 1 PT ∈ solveGraphLifo [CFLREdge.mk 0 1 AddrBar] :=
  (c6_order_independent [CFLREdge.mk 0 1 AddrBar] (by decide)
    (CFLREdge.mk 0 1 PT)).mp (by decide)

/-- C9: the solver never consumes Addr edges: two duplicate-free initial
graphs that agree on all non-Addr edges yield the same derived
(PT, PTBar, Copy, CopyBar, PV, VP) edges after `solve()`. -/
theorem c9_addr_irrelevant (g1 g2 : List CFLREdge) (hnd1 : g1.Nodup)
    (hnd2 : g2.Nodup)
    (hagree : ∀ x : CFLREdge, x.label ≠ Addr → (x ∈ g1 ↔ x ∈ g2)) :
    ∀ x : CFLREdge, x.label ∈ derivedLabels →
      (x ∈ solveGraph g1 ↔ x ∈ solveGraph g2) := by
  have key : ∀ (ga gb : List CFLREdge), ga.Nodup → gb.Nodup →
      (∀ x : CFLREdge, x.label ≠ Addr → (x ∈ ga ↔ x ∈ gb)) →
      ∀ x ∈ solveGraph ga,
        x ∈ solveGraph gb ∨ (x.label = Addr ∧ x ∈ ga) := by
    intro ga gb hna hnb hag x hx
    refine @solveGraph_subsetT ga
      (fun y => y ∈ solveGraph gb ∨ (y.label = Addr ∧ y ∈ ga))
      hna ?_ ?_ ?_ x hx
    · refine ⟨?_, ?_⟩
      · intro a b hab
        rcases hab with hm | ⟨hl, -⟩
        · exact Or.inl ((solveGraph_grammarClosed hnb).1 a b hm)
        · simp at hl
      · intro r hr a b c hab hbc
        have hab2 : CFLREdge.mk a b r.1 ∈ solveGraph gb := by
          rcases hab with hm | ⟨hl, -⟩
          · exact hm
          · exfalso
            simp [ruleList] at hr
            rcases hr with rfl | rfl | rfl | rfl <;> simp at hl
        have hbc2 : CFLREdge.mk b c r.2.1 ∈ solveGraph gb := by
          rcases hbc with hm | ⟨hl, -⟩
          · exact hm
          · exfalso
            simp [ruleList] at hr
            rcases hr with rfl | rfl | rfl | rfl <;> simp at hl
        exact Or.inl ((solveGraph_grammarClosed hnb).2 r hr a b c hab2 hbc2)
    · refine ⟨?_, ?_⟩
      · intro a b hab hnot
        have hab2 : CFLREdge.mk a b PT ∈ solveGraph gb := by
          rcases hab with hm | ⟨hl, -⟩
          · exact hm
          · simp at hl
        have hnot2 : CFLREdge.mk a b PT ∉ gb := fun hmem =>
          hnot ((hag _ (by simp)).mpr hmem)
        exact Or.inl ((solveGraph_condSymClosed hnb).1 a b hab2 hnot2)
      · intro a b hab hnot
        have hab2 : CFLREdge.mk a b Copy ∈ solveGraph gb := by
          rcases hab with hm | ⟨hl, -⟩
          · exact hm
          · simp at hl
        have hnot2 : CFLREdge.mk a b Copy ∉ gb := fun hmem =>
          hnot ((hag _ (by simp)).mpr hmem)
        exact Or.inl ((solveGraph_condSymClosed hnb).2 a b hab2 hnot2)
    · intro y hyg
      by_cases hl : y.label = Addr
      · exact Or.inr ⟨hl, hyg⟩
      · exact Or.inl ((solveState_runInv hnb).init_sub y ((hag y hl).mp hyg))
  intro x hd
  have hxne : x.label ≠ Addr := by
    intro hl
    rw [hl] at hd
    simp [derivedLabels] at hd
  constructor
  · intro hx
    rcases key g1 g2 hnd1 hnd2 hagree x hx with hm | ⟨hl, -⟩
    · exact hm
    · exact absurd hl hxne
  · intro hx
    rcases key g2 g1 hnd2 hnd1 (fun y hy => (hagree y hy).symm) x hx with
      hm | ⟨hl, -⟩
    · exact hm
    · exact absurd hl hxne

theorem c9_witness :
    CFLREdge.mk 0 1 PT ∈
      solveGraph [CFLREdge.mk 0 1 AddrBar, CFLREdge.mk 5 6 Addr] := by
  have hag : ∀ x : CFLREdge, x.label ≠ Addr →
      (x ∈ [CFLREdge.mk 0 1 AddrBar, CFLREdge.mk 5 6 Addr] ↔
        x ∈ [CFLREdge.mk 0 1 AddrBar]) := by
    intro x hl
    constructor
    · intro hx
      rcases List.mem_cons.mp hx with rfl | hx
      · simp
      · simp at hx
        subst hx
        exact absurd rfl hl
    · intro hx
      simp at hx
      subst hx
      simp
  exact (c9_addr_irrelevant [CFLREdge.mk 0 1 AddrBar, CFLREdge.mk 5 6 Addr]
    [CFLREdge.mk 0 1 AddrBar] (by decide) (by decide) hag
    (CFLREdge.mk 0 1 PT) (by decide)).mpr (by decide)
